import Mathlib

/-!
gitlab-ci-pipelines-exporter: webhook ingestion, matchers and metric derivation.

A shallow embedding of

* `pkg/controller/webhooks.go` (event ingestion and the ref / environment matchers),
* `pkg/schemas/pipelines.go` (`NewPipeline`),
* `pkg/exporter/environments.go` (`pullEnvironmentMetrics`).

Go results of shape `(value, error)` are pairs whose second component is
`Option Error` (`none` is Go's `nil`).  Go's `float64` is represented by `Float64`
below: a finite double is carried as the rational it denotes, arithmetic rounds to
the nearest double, the infinities and NaN are kept apart.  Logging has no effect on
any value and is left out.
-/

namespace GitlabExporter

/-! ## Errors and regular expressions -/

/-- Go `error` values, identified by their message. -/
abbrev Error := String

/-- A compiled `*regexp.Regexp`, identified with its `MatchString` method. -/
abbrev Regexp := String → Bool

/-! ## package schemas / config : data model -/

/-- The Go type `schemas.RefKind` is a string type. -/
abbrev RefKind := String

/-- Modelled from the spec: the constants `RefKindBranch`, `RefKindTag` and
`RefKindMergeRequest` are declared in package `schemas`, outside the sources at hand;
the spec names the three kinds branch, tag and merge-request. -/
def RefKindBranch : RefKind := "branch"

/-- Modelled from the spec: see `RefKindBranch`. -/
def RefKindTag : RefKind := "tag"

/-- Modelled from the spec: see `RefKindBranch`. -/
def RefKindMergeRequest : RefKind := "merge-request"

/-- The fields of one entry of `config.ProjectPullRefs` (`Branches`, `Tags`, `MergeRequests`)
that the controller reads. -/
structure ProjectPullRefsParameters where
  Enabled : Bool
  Regexp : String
  deriving DecidableEq, Repr

/-- The Go struct `config.ProjectPullRefs`. -/
structure ProjectPullRefs where
  Branches : ProjectPullRefsParameters
  Tags : ProjectPullRefsParameters
  MergeRequests : ProjectPullRefsParameters
  deriving DecidableEq, Repr

/-- The Go struct `config.ProjectPullEnvironments`, fields read by the controller. -/
structure ProjectPullEnvironments where
  Enabled : Bool
  Regexp : String
  deriving DecidableEq, Repr

/-- The Go struct `config.ProjectPull`, fields read by the controller. -/
structure ProjectPull where
  Refs : ProjectPullRefs
  Environments : ProjectPullEnvironments
  deriving DecidableEq, Repr

/-- The Go struct `schemas.Project`: identity and pull configuration. -/
structure Project where
  Name : String
  Pull : ProjectPull
  deriving DecidableEq, Repr

/-- The Go struct `schemas.Ref`, fields read by the controller. -/
structure Ref where
  Kind : RefKind
  Name : String
  Project : Project
  deriving DecidableEq, Repr

/-- The Go struct `config.WildcardOwner`. -/
structure WildcardOwner where
  Name : String
  Kind : String
  deriving DecidableEq, Repr

/-- The Go struct `config.Wildcard`, fields read by the controller. -/
structure Wildcard where
  Owner : WildcardOwner
  Pull : ProjectPull
  deriving DecidableEq, Repr

/-! ## Go standard library: strings -/

/-- Substring search on character lists. -/
def containsChars : List Char → List Char → Bool
  | [], substr => substr.isEmpty
  | c :: cs, substr => substr.isPrefixOf (c :: cs) || containsChars cs substr

/-- Go `strings.Contains(s, substr)`. -/
def stringsContains (s substr : String) : Bool :=
  containsChars s.toList substr.toList

/-! ## Go standard library: float64, time, strconv -/

/-- Go `float64`, an IEEE 754 double.  A finite value is carried as the rational
number it denotes, which is always one a double can hold: every finite value is made
by `Float64.round` or is a constant that is a double.  The two infinities and NaN are
separate values; the two zeros are not told apart. -/
inductive Float64 where
  | finite (q : ℚ)
  | posInf
  | negInf
  | nan
  deriving DecidableEq

/-- The integer nearest to `x`, the even one of the two when `x` lies halfway. -/
def roundHalfEven (x : ℚ) : Int :=
  if x - ⌊x⌋ < 1 / 2 then ⌊x⌋
  else if 1 / 2 < x - ⌊x⌋ then ⌊x⌋ + 1
  else if ⌊x⌋ % 2 = 0 then ⌊x⌋ else ⌊x⌋ + 1

namespace Float64

/-- The `float64` zero. -/
def zero : Float64 := finite 0

/-- IEEE 754 rounding of a rational to the nearest double, ties to even: the 53-bit
mantissa is counted in units of `2^(e-52)`, where `e` is the binary exponent of `q`
and at least -1022 (below that the doubles are subnormal); a result of `2^1024` or
more is an infinity. -/
def round (q : ℚ) : Float64 :=
  if q = 0 then finite 0
  else
    let e : Int := max (Int.log 2 |q|) (-1022)
    let ulp : ℚ := 2 ^ (e - 52)
    let r : ℚ := (roundHalfEven (|q| / ulp) : ℚ) * ulp
    if 2 ^ 1024 ≤ r then (if q < 0 then negInf else posInf)
    else finite (if q < 0 then -r else r)

/-- Go conversion `float64(n)` of an integer: the nearest double. -/
def ofInt (n : Int) : Float64 := round n

/-- Go comparison `a > b` on `float64` (false as soon as one side is NaN). -/
def gt : Float64 → Float64 → Bool
  | finite a, finite b => decide (b < a)
  | posInf, finite _ => true
  | posInf, negInf => true
  | finite _, negInf => true
  | _, _ => false

/-- Go `a + b` on `float64`: the exact sum rounded to the nearest double. -/
def add : Float64 → Float64 → Float64
  | finite a, finite b => round (a + b)
  | finite _, posInf => posInf
  | finite _, negInf => negInf
  | posInf, finite _ => posInf
  | posInf, posInf => posInf
  | negInf, finite _ => negInf
  | negInf, negInf => negInf
  | _, _ => nan

/-- Go `a / b` on `float64`: the exact quotient rounded to the nearest double. -/
def div : Float64 → Float64 → Float64
  | finite a, finite b =>
    if b = 0 then (if a = 0 then nan else if 0 < a then posInf else negInf)
    else round (a / b)
  | finite _, posInf => finite 0
  | finite _, negInf => finite 0
  | posInf, finite b => if 0 ≤ b then posInf else negInf
  | negInf, finite b => if 0 ≤ b then negInf else posInf
  | _, _ => nan

end Float64

/-- Go `time.Duration`: a signed 64-bit count of nanoseconds. -/
abbrev Duration := Int

/-- Go `time.Second`. -/
def Second : Int := 1000000000

/-- Go `minDuration`, `-1 << 63`. -/
def minDuration : Int := -(2 ^ 63)

/-- Go `maxDuration`, `1<<63 - 1`. -/
def maxDuration : Int := 2 ^ 63 - 1

/-- Go `Duration.Seconds`: `float64(d / Second) + float64(d % Second)/1e9`, with Go's
truncated integer division; the quotient and the sum are each rounded to a double. -/
def Duration.Seconds (d : Duration) : Float64 :=
  (Float64.ofInt (Int.tdiv d Second)).add
    ((Float64.ofInt (Int.tmod d Second)).div (Float64.finite 1000000000))

/-- Go `time.Time` without a monotonic clock reading (a time decoded from an API
payload has none): the instant, in nanoseconds since the Unix epoch. -/
structure Time where
  unixNano : Int
  deriving DecidableEq, Repr

namespace Time

/-- Go zero value `time.Time{}`: January 1, year 1, 00:00:00 UTC. -/
def zeroTime : Time := ⟨-62135596800 * 1000000000⟩

/-- Go `t.Before(u)`. -/
def Before (t u : Time) : Bool := decide (t.unixNano < u.unixNano)

/-- Go `t.Sub(u)`: the duration `t-u`; when it does not fit a `Duration` the maximum
(or minimum) duration is returned. -/
def Sub (t u : Time) : Duration :=
  let d := t.unixNano - u.unixNano
  if d < minDuration then minDuration
  else if maxDuration < d then maxDuration
  else d

/-- Go `t.Unix()`: seconds since the Unix epoch, rounded down. -/
def Unix (t : Time) : Int := t.unixNano / 1000000000

end Time

/-- The `Err` field of a `*strconv.NumError`. -/
inductive NumErr where
  | ErrSyntax
  | ErrRange
  deriving DecidableEq, Repr

/-- Decimal digit test, `'0' <= c && c <= '9'`. -/
def isDecDigit (c : Char) : Bool := decide ('0'.toNat ≤ c.toNat ∧ c.toNat ≤ '9'.toNat)

/-- Hexadecimal letter test, `'a' <= lower(c) && lower(c) <= 'f'`. -/
def isHexLetter (c : Char) : Bool :=
  decide (('a'.toNat ≤ c.toNat ∧ c.toNat ≤ 'f'.toNat) ∨ ('A'.toNat ≤ c.toNat ∧ c.toNat ≤ 'F'.toNat))

/-- Value of a hexadecimal letter. -/
def hexLetterVal (c : Char) : Nat :=
  if 'a'.toNat ≤ c.toNat then c.toNat - 'a'.toNat + 10 else c.toNat - 'A'.toNat + 10

/-- ASCII lower-casing, Go `lower(c)` restricted to letters. -/
def lowerChar (c : Char) : Char :=
  if 'A'.toNat ≤ c.toNat ∧ c.toNat ≤ 'Z'.toNat then Char.ofNat (c.toNat + 32) else c

/-- Go `strconv.special`, for a whole string: an optionally signed `inf` or
`infinity`, or `nan`, in any letter case. -/
def special (s : List Char) : Option Float64 :=
  let l := s.map lowerChar
  if l = "inf".toList ∨ l = "+inf".toList ∨ l = "infinity".toList ∨ l = "+infinity".toList then
    some Float64.posInf
  else if l = "-inf".toList ∨ l = "-infinity".toList then some Float64.negInf
  else if l = "nan".toList then some Float64.nan
  else none

/-- State of the mantissa loop of Go `strconv.readFloat`: the digits read so far as a
number in the base, how many of them followed the point, and the two flags. -/
structure Mantissa where
  mant : Nat
  fracDigits : Nat
  sawdot : Bool
  sawdigits : Bool
  deriving DecidableEq, Repr

/-- One more digit of value `v` in base `base`. -/
def Mantissa.push (m : Mantissa) (base v : Nat) : Mantissa :=
  { m with mant := m.mant * base + v,
           fracDigits := if m.sawdot then m.fracDigits + 1 else m.fracDigits,
           sawdigits := true }

/-- The digit loop of Go `strconv.readFloat`: consumes underscores, one point and the
digits of the base; returns the state and the unread rest. -/
def readMantissa (hex : Bool) : List Char → Mantissa → Mantissa × List Char
  | [], m => (m, [])
  | c :: cs, m =>
    if c = '_' then readMantissa hex cs m
    else if c = '.' then
      if m.sawdot then (m, c :: cs) else readMantissa hex cs { m with sawdot := true }
    else if isDecDigit c then
      readMantissa hex cs (m.push (if hex then 16 else 10) (c.toNat - '0'.toNat))
    else if hex && isHexLetter c then
      readMantissa hex cs (m.push 16 (hexLetterVal c))
    else (m, c :: cs)

/-- The exponent digit loop of Go `strconv.readFloat`: digits and underscores, the
value no longer accumulated once it has reached 10000. -/
def readExpDigits : List Char → Nat → Nat × List Char
  | [], e => (e, [])
  | c :: cs, e =>
    if c = '_' then readExpDigits cs e
    else if isDecDigit c then
      readExpDigits cs (if e < 10000 then e * 10 + (c.toNat - '0'.toNat) else e)
    else (e, c :: cs)

/-- The optional exponent of Go `strconv.readFloat`, after the exponent letter: an
optional sign, then at least one digit.  Returns the signed exponent and the rest. -/
def readExponent (s : List Char) : Option (Int × List Char) :=
  let (esign, s1) : Int × List Char :=
    match s with
    | '+' :: r => (1, r)
    | '-' :: r => (-1, r)
    | r => (1, r)
  match s1 with
  | [] => none
  | c :: _ =>
    if isDecDigit c then
      let (e, rest) := readExpDigits s1 0
      some ((e : Int) * esign, rest)
    else none

/-- Go `strconv.underscoreOK`, after the optional sign and base prefix: `last` is the
class of the previous character (`'0'` digit or base prefix, `'_'` underscore, `'!'`
anything else, `'^'` start). -/
def underscoreOKLoop (hex : Bool) : List Char → Char → Bool
  | [], last => last ≠ '_'
  | c :: cs, last =>
    if isDecDigit c || (hex && isHexLetter c) then underscoreOKLoop hex cs '0'
    else if c = '_' then
      if last ≠ '0' then false else underscoreOKLoop hex cs '_'
    else if last = '_' then false
    else underscoreOKLoop hex cs '!'

/-- Go `strconv.underscoreOK`: underscores only between digits or between a base
prefix and a digit. -/
def underscoreOK (s : List Char) : Bool :=
  let s1 := match s with
    | '-' :: r => r
    | '+' :: r => r
    | r => r
  match s1 with
  | '0' :: x :: r =>
    if lowerChar x = 'b' ∨ lowerChar x = 'o' ∨ lowerChar x = 'x' then
      underscoreOKLoop (lowerChar x = 'x') r '0'
    else underscoreOKLoop false s1 '^'
  | _ => underscoreOKLoop false s1 '^'

/-- What Go `strconv.readFloat` returns for a literal it accepts: sign, mantissa
digits, base flag and exponent of the base (10, or 2 for a hexadecimal literal). -/
structure FloatLiteral where
  neg : Bool
  mantissa : Nat
  hex : Bool
  exp : Int
  deriving DecidableEq, Repr

/-- The magnitude a literal denotes. -/
def FloatLiteral.magnitude (l : FloatLiteral) : ℚ :=
  (l.mantissa : ℚ) * (if l.hex then 2 else 10) ^ l.exp

/-- Go `strconv.readFloat` on a whole string: optional sign, optional `0x` prefix,
mantissa, optional exponent (mandatory after a hexadecimal mantissa), underscores
checked by `underscoreOK`; `none` when the string is not, to its last character, a
well-formed literal.  All mantissa digits are kept. -/
def readFloat (s : List Char) : Option FloatLiteral :=
  -- optional sign
  let (neg, s1) : Bool × List Char :=
    match s with
    | '+' :: r => (false, r)
    | '-' :: r => (true, r)
    | r => (false, r)
  -- base prefix: `i+2 < len(s) && s[i] == '0' && lower(s[i+1]) == 'x'`
  let (hex, s2) : Bool × List Char :=
    match s1 with
    | '0' :: x :: c :: r => if lowerChar x = 'x' then (true, c :: r) else (false, s1)
    | r => (false, r)
  let (m, s3) := readMantissa hex s2 ⟨0, 0, false, false⟩
  if !m.sawdigits then none
  else
    -- position of the point, in bits for a hexadecimal mantissa
    let dp : Int := if hex then -(4 * (m.fracDigits : Int)) else -(m.fracDigits : Int)
    let expo : Option (Int × List Char) :=
      match s3 with
      | [] => if hex then none else some (0, [])
      | c :: r =>
        if lowerChar c = (if hex then 'p' else 'e') then readExponent r
        else if hex then none else some (0, c :: r)
    match expo with
    | none => none
    | some (e, rest) =>
      if rest ≠ [] then none
      else if !underscoreOK s then none
      else some { neg := neg, mantissa := m.mant, hex := hex, exp := dp + e }

/-- Smallest magnitude that rounds to an infinite `float64`: halfway between the
largest finite double and `2^1024`. -/
def float64Overflow : ℚ := 2 ^ 1024 - 2 ^ 970

/-- Go `strconv.ParseFloat(s, 64)`, value and the `Err` of the returned `*NumError`:
a string that is not well formed gives `0` and `ErrSyntax`; a well-formed one too large
for a double gives an infinity and `ErrRange`; any other gives the double nearest to
the number it denotes. -/
def ParseFloat (s : String) : Float64 × Option NumErr :=
  match special s.toList with
  | some f => (f, none)
  | none =>
    match readFloat s.toList with
    | none => (Float64.finite 0, some NumErr.ErrSyntax)
    | some l =>
      if float64Overflow ≤ l.magnitude then
        (if l.neg then Float64.negInf else Float64.posInf, some NumErr.ErrRange)
      else (Float64.round (if l.neg then -l.magnitude else l.magnitude), none)

/-! ## package schemas : environments, metrics, keys -/

/-- The Go struct `schemas.Deployment`, the latest deployment of an environment. -/
structure Deployment where
  RefKind : RefKind
  RefName : String
  CommitShortID : String
  CreatedAt : Time
  Duration : Duration
  Status : String
  deriving DecidableEq, Repr

/-- The Go struct `schemas.Environment`. -/
structure Environment where
  ProjectName : String
  ID : Int
  Name : String
  TagsRegexp : String
  LatestDeployment : Deployment
  deriving DecidableEq, Repr

/-- Go `map[string]string`, as an association list without repeated keys. -/
abbrev Labels := List (String × String)

/-- Go map read `m[k]`: the empty string for an absent key. -/
def Labels.get (m : Labels) (k : String) : String := (m.lookup k).getD ""

/-- Go map write `m[k] = v`. -/
def Labels.set (m : Labels) (k v : String) : Labels :=
  if m.any (fun kv => kv.1 == k) then m.map (fun kv => if kv.1 == k then (k, v) else kv)
  else m ++ [(k, v)]

/-- The metric kinds of package `schemas` that the environment pull emits. -/
inductive MetricKind where
  | EnvironmentBehindCommitsCount
  | EnvironmentBehindDurationSeconds
  | EnvironmentDeploymentDurationSeconds
  | EnvironmentDeploymentStatus
  | EnvironmentDeploymentTimestamp
  | EnvironmentInformation
  deriving DecidableEq, Repr

/-- The Go struct `schemas.Metric`. -/
structure Metric where
  Kind : MetricKind
  Labels : Labels
  Value : Float64
  deriving DecidableEq

/-- Store keys (`schemas.RefKey`, `ProjectKey`, `EnvironmentKey`, `MetricKey`) are
string types. -/
abbrev Key := String

/-- The declarations that the controller and the exporter call and that are outside
the sources at hand, taken as parameters: of package `schemas` the `Key()` methods,
`GetRefRegexp`, the label sets of an environment and the pull configuration
`NewProject` starts a project with; of the Go library `regexp.Compile`. -/
structure Externals where
  RefKey : Ref → Key
  ProjectKey : Project → Key
  EnvironmentKey : Environment → Key
  MetricKey : Metric → Key
  GetRefRegexp : ProjectPullRefs → RefKind → Except Error Regexp
  DefaultLabelsValues : Environment → Labels
  InformationLabelsValues : Environment → Labels
  DefaultProjectPull : ProjectPull
  Compile : String → Except Error Regexp

/-- Modelled from the spec: `schemas.NewProject` is declared outside the sources at
hand; a project is identified by its path with namespace (spec, data model), and a
fresh one carries the default pull configuration. -/
def NewProject (X : Externals) (name : String) : Project :=
  { Name := name, Pull := X.DefaultProjectPull }

/-- Modelled from the spec: `schemas.NewRef` is declared outside the sources at hand;
a ref is made of its owning project, its kind and its name (spec, data model). -/
def NewRef (project : Project) (kind : RefKind) (name : String) : Ref :=
  { Kind := kind, Name := name, Project := project }

/-! ## pipelines.go -/

/-- The Go struct `goGitlab.Pipeline`, fields read by `NewPipeline`; a nil `*time.Time`
is `none`. -/
structure GitlabPipeline where
  ID : Int
  Status : String
  Coverage : String
  UpdatedAt : Option Time
  CreatedAt : Option Time
  StartedAt : Option Time
  Duration : Int
  deriving DecidableEq, Repr

/-- The Go struct `schemas.Pipeline` (pipelines.go:12-20). -/
structure Pipeline where
  ID : Int
  Coverage : Float64
  Timestamp : Float64
  DurationSeconds : Float64
  QueuedDurationSeconds : Float64
  Status : String
  Variables : String
  deriving DecidableEq

/-- Go `NewPipeline` (pipelines.go:23-53). -/
def NewPipeline (gp : GitlabPipeline) : Pipeline :=
  -- `coverage` is whatever `ParseFloat` returned, the error is only logged
  let coverage : Float64 :=
    if gp.Coverage ≠ "" then (ParseFloat gp.Coverage).1 else Float64.zero
  let timestamp : Float64 :=
    match gp.UpdatedAt with
    | some t => Float64.ofInt t.Unix
    | none => Float64.zero
  let queued : Duration :=
    match gp.StartedAt, gp.CreatedAt with
    | some startedAt, some createdAt =>
      if createdAt.Before startedAt then startedAt.Sub createdAt else 0
    | _, _ => 0
  { ID := gp.ID
    Coverage := coverage
    Timestamp := timestamp
    DurationSeconds := Float64.ofInt gp.Duration
    QueuedDurationSeconds := queued.Seconds
    Status := gp.Status
    Variables := "" }

/-! ## webhooks.go : matchers -/

/-- Go `isRefMatchingProjectPullRefs` (webhooks.go:204-229).  `GetRefRegexp` is
`schemas.GetRefRegexp`, declared outside the sources at hand and taken as a parameter. -/
def isRefMatchingProjectPullRefs
    (GetRefRegexp : ProjectPullRefs → RefKind → Except Error Regexp)
    (pprs : ProjectPullRefs) (ref : Ref) : Bool × Option Error :=
  -- Then we check if it matches the regexp
  let matchRegexp : Unit → Bool × Option Error := fun _ =>
    match GetRefRegexp pprs ref.Kind with
    | .error err => (false, some err)
    | .ok re => (re ref.Name, none)
  -- We check if the ref kind is enabled
  if ref.Kind = RefKindBranch then
    if !pprs.Branches.Enabled then (false, none) else matchRegexp ()
  else if ref.Kind = RefKindTag then
    if !pprs.Tags.Enabled then (false, none) else matchRegexp ()
  else if ref.Kind = RefKindMergeRequest then
    if !pprs.MergeRequests.Enabled then (false, none) else matchRegexp ()
  else (false, some ("invalid ref kind " ++ ref.Kind))

/-- Go `isRefMatchingWilcard` (webhooks.go:245-253). -/
def isRefMatchingWilcard
    (GetRefRegexp : ProjectPullRefs → RefKind → Except Error Regexp)
    (w : Wildcard) (ref : Ref) : Bool × Option Error :=
  -- Then we check if the owner matches the ref or is global
  if w.Owner.Kind ≠ "" ∧ ¬ stringsContains ref.Project.Name w.Owner.Name then
    (false, none)
  else
    -- Then we check if the ref matches the project pull parameters
    isRefMatchingProjectPullRefs GetRefRegexp w.Pull.Refs ref

/-- Go `isEnvMatchingProjectPullEnvironments` (webhooks.go:231-243); `Compile` is
`regexp.Compile`. -/
def isEnvMatchingProjectPullEnvironments
    (Compile : String → Except Error Regexp)
    (ppe : ProjectPullEnvironments) (env : Environment) : Bool × Option Error :=
  -- We check if the environments pulling is enabled
  if !ppe.Enabled then (false, none)
  else
    -- Then we check if it matches the regexp
    match Compile ppe.Regexp with
    | .error err => (false, some err)
    | .ok re => (re env.Name, none)

/-- Go `isEnvMatchingWilcard` (webhooks.go:255-263). -/
def isEnvMatchingWilcard
    (Compile : String → Except Error Regexp)
    (w : Wildcard) (env : Environment) : Bool × Option Error :=
  -- Then we check if the owner matches the ref or is global
  if w.Owner.Kind ≠ "" ∧ ¬ stringsContains env.ProjectName w.Owner.Name then
    (false, none)
  else
    -- Then we check if the ref matches the project pull parameters
    isEnvMatchingProjectPullEnvironments Compile w.Pull.Environments env

/-! ## The Store interface, scheduled tasks and the effect trace -/

/-- The `Store` interface, over the type `σ` of store states.  An existence check and
a read leave the state alone; a write returns the state it leaves behind together
with its error. -/
structure Store (σ : Type) where
  RefExists : σ → Key → Bool × Option Error
  ProjectExists : σ → Key → Bool × Option Error
  EnvironmentExists : σ → Key → Bool × Option Error
  MetricExists : σ → Key → Bool × Option Error
  GetProject : σ → Project → Project × Option Error
  GetEnvironment : σ → Environment → Environment × Option Error
  SetRef : σ → Ref → σ × Option Error
  SetEnvironment : σ → Environment → σ × Option Error

/-- Go `schemas.TaskType`, the three task types of the scheduler. -/
inductive TaskType where
  | PullProjectsFromWildcard
  | PullRefMetrics
  | PullEnvironmentMetrics
  deriving DecidableEq, Repr

/-- One variadic argument of a `ScheduleTask` call. -/
inductive TaskArg where
  | str (s : String)
  | wildcard (w : Wildcard)
  | ref (r : Ref)
  | env (e : Environment)
  deriving DecidableEq, Repr

/-- A call `ScheduleTask(ctx, tt, uniqueID, args...)`. -/
structure Task where
  tt : TaskType
  uniqueID : String
  args : List TaskArg
  deriving DecidableEq, Repr

/-- The calls a handler makes on its collaborators (Store, scheduler, upstream API
client, metric helpers), in the order it makes them. -/
inductive Effect where
  | RefExists (k : Key)
  | ProjectExists (k : Key)
  | EnvironmentExists (k : Key)
  | MetricExists (k : Key)
  | GetProject (p : Project)
  | GetEnvironment (e : Environment)
  | SetRef (r : Ref)
  | SetEnvironment (e : Environment)
  | UpdateEnvironment (e : Environment)
  | ScheduleTask (t : Task)
  | storeSetMetric (m : Metric)
  | emitStatusMetric (kind : MetricKind) (labels : Labels) (statuses : List String)
      (status : String) (sparse : Bool)
  | ClientGetEnvironment (project : String) (id : Int)
  | ClientGetBranchLatestCommit (project : String) (ref : String)
  | ClientGetProjectMostRecentTagCommit (project : String) (tagsRegexp : String)
  | ClientGetCommitCountBetweenRefs (project : String) (fromRef : String) (toRef : String)
  deriving DecidableEq

/-- What a handler acts on: the state of the Store and the trace of the calls made so
far, oldest first. -/
structure World (σ : Type) where
  store : σ
  trace : List Effect

/-- Appends a call to the trace. -/
def World.record {σ : Type} (w : World σ) (e : Effect) : World σ :=
  { w with trace := w.trace ++ [e] }

/-- The tasks scheduled in a trace, oldest first. -/
def scheduledTasks (trace : List Effect) : List Task :=
  trace.filterMap (fun e => match e with
    | .ScheduleTask t => some t
    | _ => none)

/-- The Store writes of a trace (`SetRef`, `SetEnvironment`, and what the controller's
`UpdateEnvironment` and the metric helpers do to the Store), oldest first. -/
def storeWrites (trace : List Effect) : List Effect :=
  trace.filter (fun e => match e with
    | .SetRef _ => true
    | .SetEnvironment _ => true
    | .UpdateEnvironment _ => true
    | .storeSetMetric _ => true
    | .emitStatusMetric _ _ _ _ _ => true
    | _ => false)

/-- Go `strconv.Itoa`. -/
def Itoa (n : Int) : String := toString n

/-- Modelled from the spec: `Controller.ScheduleTask` is declared outside the sources
at hand; the call hands a task descriptor (type, unique identifier, arguments) to the
scheduler, which deduplicates and runs it on its own (spec, task scheduler).  The call
is recorded in the trace. -/
def ScheduleTask {σ : Type} (w : World σ) (tt : TaskType) (uniqueID : String)
    (args : List TaskArg) : World σ :=
  w.record (.ScheduleTask ⟨tt, uniqueID, args⟩)

/-! ## webhooks.go : event ingestion -/

/-- The Go struct `goGitlab.PipelineEvent`, fields read by `processPipelineEvent`:
`ObjectAttributes.Ref`, `ObjectAttributes.Tag`, `MergeRequest.IID` and
`Project.PathWithNamespace`. -/
structure PipelineEvent where
  Ref : String
  Tag : Bool
  MergeRequestIID : Int
  PathWithNamespace : String
  deriving DecidableEq, Repr

/-- The Go struct `goGitlab.DeploymentEvent`, fields read by `processDeploymentEvent`:
`Project.PathWithNamespace` and `Environment`. -/
structure DeploymentEvent where
  PathWithNamespace : String
  Environment : String
  deriving DecidableEq, Repr

/-- The Go struct `Controller`, as far as the webhook handlers use it:
`c.Config.Wildcards`, `c.Store`, and the method `c.UpdateEnvironment` (declared
outside the sources at hand, taken as a parameter: it may fail, and may change the
environment it is given and the Store). -/
structure Controller (σ : Type) where
  Wildcards : List Wildcard
  Store : Store σ
  UpdateEnvironment : σ → Environment → (σ × Environment) × Option Error

/-- The wildcard loops of webhooks.go:63-78 and 147-162, `for id, w := range
c.Config.Wildcards`, from index `id` on: a wildcard whose matcher fails is skipped with
`continue`, one that matches has a discovery task scheduled under its decimal index. -/
def scheduleWildcards {σ : Type} (matcher : Wildcard → Bool × Option Error) :
    Nat → List Wildcard → World σ → World σ
  | _, [], w => w
  | id, wc :: rest, w =>
    match matcher wc with
    | (_, some _) => scheduleWildcards matcher (id + 1) rest w
    | (true, none) =>
      scheduleWildcards matcher (id + 1) rest
        (ScheduleTask w TaskType.PullProjectsFromWildcard (Itoa id)
          [TaskArg.str (Itoa id), TaskArg.wildcard wc])
    | (false, none) => scheduleWildcards matcher (id + 1) rest w

/-- Go `Controller.triggerRefMetricsPull` (webhooks.go:38-115). -/
def triggerRefMetricsPull {σ : Type} (X : Externals) (c : Controller σ) (ref : Ref)
    (w : World σ) : World σ :=
  let w := w.record (.RefExists (X.RefKey ref))
  match c.Store.RefExists w.store (X.RefKey ref) with
  | (_, some _) => w
  | (true, none) =>
    -- schedulePull
    ScheduleTask w TaskType.PullRefMetrics (X.RefKey ref) [TaskArg.ref ref]
  | (false, none) =>
    -- Let's try to see if the project is configured to export this ref
    let p := NewProject X ref.Project.Name
    let w := w.record (.ProjectExists (X.ProjectKey p))
    match c.Store.ProjectExists w.store (X.ProjectKey p) with
    | (_, some _) => w
    | (projectExists, none) =>
      -- Perhaps the project is discoverable through a wildcard
      if !projectExists && decide (c.Wildcards.length > 0) then
        scheduleWildcards (fun wc => isRefMatchingWilcard X.GetRefRegexp wc ref) 0 c.Wildcards w
      else if projectExists then
        -- If the project exists, we check that the ref matches it's configuration
        let w := w.record (.GetProject p)
        match c.Store.GetProject w.store p with
        | (_, some _) => w
        | (p, none) =>
          match isRefMatchingProjectPullRefs X.GetRefRegexp p.Pull.Refs ref with
          | (_, some _) => w
          | (false, none) => w
          | (true, none) =>
            let ref := { ref with Project := p }
            let w := w.record (.SetRef ref)
            match c.Store.SetRef w.store ref with
            | (st, some _) => { w with store := st }
            | (st, none) =>
              -- goto schedulePull
              ScheduleTask { w with store := st } TaskType.PullRefMetrics (X.RefKey ref)
                [TaskArg.ref ref]
      else w

/-- Go `Controller.processPipelineEvent` (webhooks.go:16-36): the ref of the event. -/
def pipelineEventRef (X : Externals) (e : PipelineEvent) : Ref :=
  let (refKind, refName) : RefKind × String :=
    if e.MergeRequestIID ≠ 0 then (RefKindMergeRequest, Itoa e.MergeRequestIID)
    else if e.Tag then (RefKindTag, e.Ref)
    else (RefKindBranch, e.Ref)
  NewRef (NewProject X e.PathWithNamespace) refKind refName

/-- Go `Controller.processPipelineEvent` (webhooks.go:16-36). -/
def processPipelineEvent {σ : Type} (X : Externals) (c : Controller σ) (e : PipelineEvent)
    (w : World σ) : World σ :=
  triggerRefMetricsPull X c (pipelineEventRef X e) w

/-- Go `Controller.triggerEnvironmentMetricsPull` (webhooks.go:124-202). -/
def triggerEnvironmentMetricsPull {σ : Type} (X : Externals) (c : Controller σ)
    (env : Environment) (w : World σ) : World σ :=
  let w := w.record (.EnvironmentExists (X.EnvironmentKey env))
  match c.Store.EnvironmentExists w.store (X.EnvironmentKey env) with
  | (_, some _) => w
  | (true, none) =>
    -- Need to refresh the env from the store in order to get at least it's ID
    if env.ID = 0 then
      -- a failed read is logged only
      let w := w.record (.GetEnvironment env)
      let env := (c.Store.GetEnvironment w.store env).1
      ScheduleTask w TaskType.PullEnvironmentMetrics (X.EnvironmentKey env) [TaskArg.env env]
    else
      ScheduleTask w TaskType.PullEnvironmentMetrics (X.EnvironmentKey env) [TaskArg.env env]
  | (false, none) =>
    let p := NewProject X env.ProjectName
    let w := w.record (.ProjectExists (X.ProjectKey p))
    match c.Store.ProjectExists w.store (X.ProjectKey p) with
    | (_, some _) => w
    | (projectExists, none) =>
      -- Perhaps the project is discoverable through a wildcard
      if !projectExists && decide (c.Wildcards.length > 0) then
        scheduleWildcards (fun wc => isEnvMatchingWilcard X.Compile wc env) 0 c.Wildcards w
      else if projectExists then
        -- a failed read is logged only
        let w := w.record (.GetProject p)
        let p := (c.Store.GetProject w.store p).1
        match isEnvMatchingProjectPullEnvironments X.Compile p.Pull.Environments env with
        | (_, some _) => w
        | (false, none) => w
        | (true, none) =>
          -- As we do not get the environment ID within the deployment event, we need to query it back..
          let w := w.record (.UpdateEnvironment env)
          match c.UpdateEnvironment w.store env with
          | ((st, _), some _) => { w with store := st }
          | ((st, env), none) =>
            -- goto schedulePull
            ScheduleTask { w with store := st } TaskType.PullEnvironmentMetrics
              (X.EnvironmentKey env) [TaskArg.env env]
      else w

/-- Go `Controller.processDeploymentEvent` (webhooks.go:117-122); the fields the
literal leaves out have Go's zero values. -/
def processDeploymentEvent {σ : Type} (X : Externals) (c : Controller σ) (e : DeploymentEvent)
    (w : World σ) : World σ :=
  triggerEnvironmentMetricsPull X c
    { ProjectName := e.PathWithNamespace
      ID := 0
      Name := e.Environment
      TagsRegexp := ""
      LatestDeployment :=
        { RefKind := "", RefName := "", CommitShortID := "", CreatedAt := Time.zeroTime,
          Duration := 0, Status := "" } } w

/-! ## environments.go : the environment pull -/

/-- The upstream API client `gitlabClient`, as far as `pullEnvironmentMetrics` calls
it.  The answers are a function of the request: the upstream data is fixed. -/
structure Client where
  GetEnvironment : String → Int → Except Error Environment
  GetBranchLatestCommit : String → String → Except Error (String × Time)
  GetProjectMostRecentTagCommit : String → String → Except Error (String × Time)
  GetCommitCountBetweenRefs : String → String → String → Except Error Int

/-- The package-level collaborators of `pullEnvironmentMetrics`: the globals
`gitlabClient` and `store`, and the helpers `storeSetMetric`, `emitStatusMetric` and
`statusesList`, declared outside the sources at hand and taken as parameters (each
helper as what it does to the Store). -/
structure Exporter (σ : Type) where
  gitlabClient : Client
  store : Store σ
  storeSetMetric : σ → Metric → σ
  emitStatusMetric : σ → MetricKind → Labels → List String → String → Bool → σ
  statusesList : List String

/-- A call `storeSetMetric(m)`, recorded in the trace. -/
def Exporter.setMetric {σ : Type} (E : Exporter σ) (w : World σ) (m : Metric) : World σ :=
  { store := E.storeSetMetric w.store m, trace := w.trace ++ [Effect.storeSetMetric m] }

/-- Lines 67-73 of environments.go: the information labels and the date of the latest
commit, fetched for a branch or a tag deployment, with the call made (if any).  For
another ref kind nothing is fetched and `commitDate` keeps its zero value. -/
def latestCommit (X : Externals) (client : Client) (env : Environment) :
    List Effect × Except Error (Labels × Time) :=
  let infoLabels := X.InformationLabelsValues env
  if env.LatestDeployment.RefKind = RefKindBranch then
    ([Effect.ClientGetBranchLatestCommit env.ProjectName env.LatestDeployment.RefName],
      match client.GetBranchLatestCommit env.ProjectName env.LatestDeployment.RefName with
      | .error err => .error err
      | .ok (id, commitDate) => .ok (infoLabels.set "latest_commit_short_id" id, commitDate))
  else if env.LatestDeployment.RefKind = RefKindTag then
    ([Effect.ClientGetProjectMostRecentTagCommit env.ProjectName env.TagsRegexp],
      match client.GetProjectMostRecentTagCommit env.ProjectName env.TagsRegexp with
      | .error err => .error err
      | .ok (id, commitDate) => .ok (infoLabels.set "latest_commit_short_id" id, commitDate))
  else ([], .ok (infoLabels, Time.zeroTime))

/-- Lines 79-104 of environments.go: `envBehindCommitCount`, with the calls made.  The
count is looked up only when the two commit identifiers differ and the Store has no
information metric under the key of the default labels; it is zero otherwise. -/
def behindCommitCount {σ : Type} (X : Externals) (E : Exporter σ) (env : Environment)
    (infoLabels : Labels) (st : σ) : List Effect × Except Error Float64 :=
  if infoLabels.get "latest_commit_short_id" ≠ infoLabels.get "current_commit_short_id" then
    -- To reduce the amount of compare requests being made, we check if the labels are unchanged since
    -- the latest emission of the information metric
    let key := X.MetricKey
      { Kind := MetricKind.EnvironmentInformation, Labels := X.DefaultLabelsValues env,
        Value := Float64.zero }
    match E.store.MetricExists st key with
    | (_, some err) => ([Effect.MetricExists key], .error err)
    | (true, none) => ([Effect.MetricExists key], .ok Float64.zero)
    | (false, none) =>
      ([Effect.MetricExists key,
        Effect.ClientGetCommitCountBetweenRefs env.ProjectName
          (infoLabels.get "current_commit_short_id") (infoLabels.get "latest_commit_short_id")],
        match E.gitlabClient.GetCommitCountBetweenRefs env.ProjectName
            (infoLabels.get "current_commit_short_id")
            (infoLabels.get "latest_commit_short_id") with
        | .error err => .error err
        | .ok commitCount => .ok (Float64.ofInt commitCount))
  else ([], .ok Float64.zero)

/-- Lines 106-108 of environments.go: `envBehindDurationSeconds`. -/
def behindDurationSeconds (commitDate : Time) (env : Environment) : Float64 :=
  if (commitDate.Sub env.LatestDeployment.CreatedAt).Seconds.gt Float64.zero then
    (commitDate.Sub env.LatestDeployment.CreatedAt).Seconds
  else Float64.zero

/-- Lines 110-147 of environments.go: the metrics of one pull, emitted in order. -/
def emitEnvironmentMetrics {σ : Type} (X : Externals) (E : Exporter σ) (env : Environment)
    (infoLabels : Labels) (envBehindCommitCount envBehindDurationSeconds : Float64)
    (w : World σ) : World σ :=
  let w := E.setMetric w
    { Kind := MetricKind.EnvironmentBehindCommitsCount, Labels := X.DefaultLabelsValues env,
      Value := envBehindCommitCount }
  let w := E.setMetric w
    { Kind := MetricKind.EnvironmentBehindDurationSeconds, Labels := X.DefaultLabelsValues env,
      Value := envBehindDurationSeconds }
  let w := E.setMetric w
    { Kind := MetricKind.EnvironmentDeploymentDurationSeconds,
      Labels := X.DefaultLabelsValues env,
      Value := env.LatestDeployment.Duration.Seconds }
  let w : World σ :=
    { store := E.emitStatusMetric w.store MetricKind.EnvironmentDeploymentStatus
        (X.DefaultLabelsValues env) E.statusesList env.LatestDeployment.Status true,
      trace := w.trace ++ [Effect.emitStatusMetric MetricKind.EnvironmentDeploymentStatus
        (X.DefaultLabelsValues env) E.statusesList env.LatestDeployment.Status true] }
  let w := E.setMetric w
    { Kind := MetricKind.EnvironmentDeploymentTimestamp, Labels := X.DefaultLabelsValues env,
      Value := Float64.ofInt env.LatestDeployment.CreatedAt.Unix }
  E.setMetric w
    { Kind := MetricKind.EnvironmentInformation, Labels := infoLabels,
      Value := Float64.finite 1 }

/-- Go `pullEnvironmentMetrics` (environments.go:54-150): the returned error and the
world it leaves.  The read lock on the configuration guards no value and is left out. -/
def pullEnvironmentMetrics {σ : Type} (X : Externals) (E : Exporter σ) (env : Environment)
    (w : World σ) : Option Error × World σ :=
  let w := w.record (.ClientGetEnvironment env.ProjectName env.ID)
  match E.gitlabClient.GetEnvironment env.ProjectName env.ID with
  | .error err => (some err, w)
  | .ok env =>
    let w := w.record (.SetEnvironment env)
    match E.store.SetEnvironment w.store env with
    | (st, some err) => (some err, { w with store := st })
    | (st, none) =>
      let w : World σ := { w with store := st }
      let (calls, latest) := latestCommit X E.gitlabClient env
      let w : World σ := { w with trace := w.trace ++ calls }
      match latest with
      | .error err => (some err, w)
      | .ok (infoLabels, commitDate) =>
        let (calls, counted) := behindCommitCount X E env infoLabels w.store
        let w : World σ := { w with trace := w.trace ++ calls }
        match counted with
        | .error err => (some err, w)
        | .ok envBehindCommitCount =>
          (none, emitEnvironmentMetrics X E env infoLabels envBehindCommitCount
            (behindDurationSeconds commitDate env) w)

/-! ## An in-memory instance, for evaluating the handlers on concrete inputs -/

/-- Overwrites the value under a key of an association list, or adds the key. -/
def assocSet {α : Type} (m : List (Key × α)) (k : Key) (v : α) : List (Key × α) :=
  if m.any (fun kv => kv.1 == k) then m.map (fun kv => if kv.1 == k then (k, v) else kv)
  else m ++ [(k, v)]

/-- A sequence of writes, applied in order. -/
def applyWrites {α : Type} (ws : List (Key × α)) (m : List (Key × α)) : List (Key × α) :=
  ws.foldl (fun acc kv => assocSet acc kv.1 kv.2) m

/-- What a sequence of writes makes of an entry whose key is already there. -/
def updateAll {α : Type} (ws : List (Key × α)) (kv : Key × α) : Key × α :=
  ws.foldl (fun acc w => if acc.1 == w.1 then (w.1, w.2) else acc) kv

/-- Modelled from the spec: the in-memory Store is declared outside the sources at
hand; it keeps projects, refs, environments and metrics by key (spec, Store). -/
structure LocalStore where
  projects : List (Key × Project)
  refs : List (Key × Ref)
  environments : List (Key × Environment)
  metrics : List (Key × Metric)
  deriving DecidableEq

/-- The empty in-memory Store. -/
def LocalStore.empty : LocalStore := ⟨[], [], [], []⟩

/-- The name under which a metric kind enters a metric key. -/
def metricKindName : MetricKind → String
  | .EnvironmentBehindCommitsCount => "environment_behind_commits_count"
  | .EnvironmentBehindDurationSeconds => "environment_behind_duration_seconds"
  | .EnvironmentDeploymentDurationSeconds => "environment_deployment_duration_seconds"
  | .EnvironmentDeploymentStatus => "environment_deployment_status"
  | .EnvironmentDeploymentTimestamp => "environment_deployment_timestamp"
  | .EnvironmentInformation => "environment_information"

/-- A label set as it enters a metric key: every label with its value. -/
def renderLabels : Labels → String
  | [] => ""
  | (k, v) :: rest => ";" ++ k ++ "=" ++ v ++ renderLabels rest

/-- Modelled from the spec: keys and label sets of package `schemas`, declared outside
the sources at hand.  A ref is keyed by project, kind and name (`group/app:branch:main`
in the spec), a project by its path, an environment by project and name, and a metric
by its kind and its whole label set (spec, data model: a Metric is identified by the
composite key of metric kind and label set).  The default labels of an environment
are its project and its name; the information labels add the descriptive fields, the
two commit identifiers among them.  The regexp engine knows literal patterns and `.*`
only and refuses every other pattern. -/
def localExternals : Externals where
  RefKey r := r.Project.Name ++ ":" ++ r.Kind ++ ":" ++ r.Name
  ProjectKey p := p.Name
  EnvironmentKey e := e.ProjectName ++ ":" ++ e.Name
  MetricKey m := metricKindName m.Kind ++ renderLabels m.Labels
  Compile pattern :=
    if pattern = ".*" then .ok (fun _ => true)
    else if pattern.toList.any (fun c => c ∈ ['\\', '.', '*', '+', '?', '|', '^', '$',
        '(', ')', '[', ']', '\x7b', '\x7d']) then
      .error ("error parsing regexp: " ++ pattern)
    else .ok (fun str => stringsContains str pattern)
  GetRefRegexp pprs kind :=
    let compile : String → Except Error Regexp := fun pattern =>
      if pattern = ".*" then .ok (fun _ => true)
      else if pattern.toList.any (fun c => c ∈ ['\\', '.', '*', '+', '?', '|', '^', '$',
          '(', ')', '[', ']', '\x7b', '\x7d']) then
        .error ("error parsing regexp: " ++ pattern)
      else .ok (fun str => stringsContains str pattern)
    if kind = RefKindBranch then compile pprs.Branches.Regexp
    else if kind = RefKindTag then compile pprs.Tags.Regexp
    else if kind = RefKindMergeRequest then compile ".*"
    else .error ("invalid ref kind " ++ kind)
  DefaultLabelsValues e := [("project", e.ProjectName), ("environment", e.Name)]
  InformationLabelsValues e :=
    [("project", e.ProjectName), ("environment", e.Name),
     ("kind", e.LatestDeployment.RefKind), ("ref", e.LatestDeployment.RefName),
     ("current_commit_short_id", e.LatestDeployment.CommitShortID),
     ("latest_commit_short_id", "")]
  DefaultProjectPull :=
    { Refs := { Branches := ⟨true, "main"⟩, Tags := ⟨true, ".*"⟩, MergeRequests := ⟨false, ""⟩ },
      Environments := ⟨false, ".*"⟩ }

/-- Modelled from the spec: the operations of the in-memory Store (spec, Store):
existence checks by key, reads that fill in a stored entity, writes that overwrite. -/
def localStore : Store LocalStore where
  RefExists s k := ((s.refs.lookup k).isSome, none)
  ProjectExists s k := ((s.projects.lookup k).isSome, none)
  EnvironmentExists s k := ((s.environments.lookup k).isSome, none)
  MetricExists s k := ((s.metrics.lookup k).isSome, none)
  GetProject s p := ((s.projects.lookup (localExternals.ProjectKey p)).getD p, none)
  GetEnvironment s e := ((s.environments.lookup (localExternals.EnvironmentKey e)).getD e, none)
  SetRef s r := ({ s with refs := assocSet s.refs (localExternals.RefKey r) r }, none)
  SetEnvironment s e :=
    ({ s with environments := assocSet s.environments (localExternals.EnvironmentKey e) e }, none)

/-- Modelled from the spec: `storeSetMetric` on the in-memory Store; setting a metric
overwrites the value under its key (spec, data model). -/
def localSetMetric (s : LocalStore) (m : Metric) : LocalStore :=
  { s with metrics := assocSet s.metrics (localExternals.MetricKey m) m }

/-- Modelled from the spec: `emitStatusMetric` on the in-memory Store; one sample per
status of the list, 1 for the current status and 0 for the others (spec, one-hot
status emission). -/
def localEmitStatusMetric (s : LocalStore) (kind : MetricKind) (labels : Labels)
    (statuses : List String) (status : String) (_sparse : Bool) : LocalStore :=
  statuses.foldl (fun st name =>
    localSetMetric st
      { Kind := kind, Labels := labels.set "status" name,
        Value := if name = status then Float64.finite 1 else Float64.finite 0 }) s

/-- A controller over the in-memory Store with the given wildcards; its
`UpdateEnvironment` finds nothing upstream. -/
def localController (wildcards : List Wildcard) : Controller LocalStore where
  Wildcards := wildcards
  Store := localStore
  UpdateEnvironment s e := ((s, e), some "environment not found")

/-- A world with the given in-memory Store and an empty trace. -/
def localWorld (s : LocalStore) : World LocalStore := ⟨s, []⟩

/-- An exporter over the in-memory Store and the given upstream client. -/
def localExporter (client : Client) : Exporter LocalStore where
  gitlabClient := client
  store := localStore
  storeSetMetric := localSetMetric
  emitStatusMetric := localEmitStatusMetric
  statusesList := ["running", "success", "failed"]

/-- The metrics that one pull of an environment sets on the in-memory exporter, in
order, each under its key: lines 110-147 of environments.go with the three statuses of
`localExporter`. -/
def localMetricWrites (env : Environment) (infoLabels : Labels)
    (envBehindCommitCount envBehindDurationSeconds : Float64) : List (Key × Metric) :=
  ([ { Kind := MetricKind.EnvironmentBehindCommitsCount,
       Labels := localExternals.DefaultLabelsValues env, Value := envBehindCommitCount },
     { Kind := MetricKind.EnvironmentBehindDurationSeconds,
       Labels := localExternals.DefaultLabelsValues env, Value := envBehindDurationSeconds },
     { Kind := MetricKind.EnvironmentDeploymentDurationSeconds,
       Labels := localExternals.DefaultLabelsValues env,
       Value := env.LatestDeployment.Duration.Seconds },
     { Kind := MetricKind.EnvironmentDeploymentStatus,
       Labels := (localExternals.DefaultLabelsValues env).set "status" "running",
       Value := if "running" = env.LatestDeployment.Status then Float64.finite 1
                else Float64.finite 0 },
     { Kind := MetricKind.EnvironmentDeploymentStatus,
       Labels := (localExternals.DefaultLabelsValues env).set "status" "success",
       Value := if "success" = env.LatestDeployment.Status then Float64.finite 1
                else Float64.finite 0 },
     { Kind := MetricKind.EnvironmentDeploymentStatus,
       Labels := (localExternals.DefaultLabelsValues env).set "status" "failed",
       Value := if "failed" = env.LatestDeployment.Status then Float64.finite 1
                else Float64.finite 0 },
     { Kind := MetricKind.EnvironmentDeploymentTimestamp,
       Labels := localExternals.DefaultLabelsValues env,
       Value := Float64.ofInt env.LatestDeployment.CreatedAt.Unix },
     { Kind := MetricKind.EnvironmentInformation, Labels := infoLabels,
       Value := Float64.finite 1 } ] : List Metric).map
    (fun m => (localExternals.MetricKey m, m))

/-! ## Concrete pipelines -/

/-- The pipeline of `TestRunningPipeline` (pipelines_test.go:33-46): created on
2020-10-01 at 13:04:10 UTC, started and updated at 13:05:10. -/
def runningPipeline : GitlabPipeline :=
  { ID := 21, Status := "running", Coverage := "25.6",
    UpdatedAt := some ⟨1601557510 * 1000000000⟩,
    CreatedAt := some ⟨1601557450 * 1000000000⟩,
    StartedAt := some ⟨1601557510 * 1000000000⟩,
    Duration := 15 }

/-- A pipeline created on 1970-01-01 at 00:00:00 UTC and started on 2270-01-01 at
00:00:00 UTC, 109573 days later. -/
def threeCenturiesPipeline : GitlabPipeline :=
  { ID := 22, Status := "running", Coverage := "",
    UpdatedAt := none,
    CreatedAt := some ⟨0⟩,
    StartedAt := some ⟨109573 * 86400 * 1000000000⟩,
    Duration := 15 }

/-- A pipeline whose coverage string is a well-formed number beyond the range of a
double. -/
def hugeCoveragePipeline : GitlabPipeline :=
  { ID := 23, Status := "success", Coverage := "1e999",
    UpdatedAt := none, CreatedAt := none, StartedAt := none, Duration := 15 }

/-- A pipeline whose coverage string is not a number. -/
def percentCoveragePipeline : GitlabPipeline :=
  { ID := 24, Status := "success", Coverage := "25.6%",
    UpdatedAt := none, CreatedAt := none, StartedAt := none, Duration := 15 }

/-! ## Concrete events and stores -/

/-- The discovery tasks that wildcard matching is expected to schedule: one per
wildcard on which the matcher answers (true, no error), in configuration order, each
identified by the decimal index of its wildcard and carrying that wildcard. -/
def matchingWildcardTasks (matcher : Wildcard → Bool × Option Error)
    (wildcards : List Wildcard) : List Effect :=
  wildcards.enum.filterMap (fun iw =>
    if matcher iw.2 = (true, none) then
      some (Effect.ScheduleTask
        ⟨TaskType.PullProjectsFromWildcard, Itoa iw.1, [TaskArg.str (Itoa iw.1), TaskArg.wildcard iw.2]⟩)
    else none)

/-- The pipeline event of the spec's example: project `group/app`, no merge request,
not a tag, ref `main`. -/
def mainBranchEvent : PipelineEvent :=
  { Ref := "main", Tag := false, MergeRequestIID := 0, PathWithNamespace := "group/app" }

/-- An in-memory Store that tracks the branch `main` of `group/app` and nothing else. -/
def mainBranchStore : LocalStore :=
  { projects := [], refs := [("group/app:branch:main",
      ⟨RefKindBranch, "main", ⟨"group/app", localExternals.DefaultProjectPull⟩⟩)],
    environments := [], metrics := [] }

/-- A ref of the unlisted project `group/unlisted`. -/
def unlistedRef : Ref :=
  ⟨RefKindBranch, "main", ⟨"group/unlisted", localExternals.DefaultProjectPull⟩⟩

/-- An environment of the unlisted project `group/unlisted`, as a deployment event
describes it. -/
def unlistedEnvironment : Environment :=
  { ProjectName := "group/unlisted", ID := 0, Name := "production", TagsRegexp := "",
    LatestDeployment :=
      { RefKind := "", RefName := "", CommitShortID := "", CreatedAt := Time.zeroTime,
        Duration := 0, Status := "" } }

/-- Three wildcards: one whose branch regexp is malformed, one owned by another
group, one without owner that pulls every branch and every environment. -/
def sampleWildcards : List Wildcard :=
  [ ⟨⟨"", ""⟩, ⟨⟨⟨true, "("⟩, ⟨true, ".*"⟩, ⟨false, ""⟩⟩, ⟨true, "("⟩⟩⟩,
    ⟨⟨"other", "group"⟩, ⟨⟨⟨true, ".*"⟩, ⟨true, ".*"⟩, ⟨false, ""⟩⟩, ⟨true, ".*"⟩⟩⟩,
    ⟨⟨"", ""⟩, ⟨⟨⟨true, ".*"⟩, ⟨true, ".*"⟩, ⟨false, ""⟩⟩, ⟨true, ".*"⟩⟩⟩ ]

/-- The project `group/app` as the Store holds it: branches containing `mai` are
pulled, tags and merge requests are not. -/
def appProject : Project :=
  ⟨"group/app", ⟨⟨⟨true, "mai"⟩, ⟨false, ".*"⟩, ⟨false, ""⟩⟩, ⟨false, ".*"⟩⟩⟩

/-- An in-memory Store that knows the project `group/app` and none of its refs. -/
def appProjectStore : LocalStore :=
  { projects := [("group/app", appProject)], refs := [], environments := [], metrics := [] }

/-- The branch `main` of `group/app`, as a pipeline event brings it. -/
def appMainRef : Ref := NewRef (NewProject localExternals "group/app") RefKindBranch "main"

/-- The tag `v1` of `group/app`, as a pipeline event brings it. -/
def appTagRef : Ref := NewRef (NewProject localExternals "group/app") RefKindTag "v1"

/-- The environment `production` of `group/app` as the upstream API returns it: last
deployed from the branch `main` at commit `aaaaaaaa`, on 2020-10-01 at 13:04:10 UTC,
in 30 seconds. -/
def productionEnvironment : Environment :=
  { ProjectName := "group/app", ID := 7, Name := "production", TagsRegexp := ".*",
    LatestDeployment :=
      { RefKind := RefKindBranch, RefName := "main", CommitShortID := "aaaaaaaa",
        CreatedAt := ⟨1601557450 * 1000000000⟩, Duration := 30 * 1000000000,
        Status := "success" } }

/-- An upstream API on which the environment cannot be fetched. -/
def unreachableClient : Client where
  GetEnvironment _ _ := .error "502 Bad Gateway"
  GetBranchLatestCommit _ _ := .error "502 Bad Gateway"
  GetProjectMostRecentTagCommit _ _ := .error "502 Bad Gateway"
  GetCommitCountBetweenRefs _ _ _ := .error "502 Bad Gateway"

/-- An upstream API that returns the environment and then fails on the latest commit
of the branch. -/
def failingBranchClient : Client where
  GetEnvironment _ _ := .ok productionEnvironment
  GetBranchLatestCommit _ _ := .error "502 Bad Gateway"
  GetProjectMostRecentTagCommit _ _ := .error "502 Bad Gateway"
  GetCommitCountBetweenRefs _ _ _ := .error "502 Bad Gateway"

/-- An upstream API on which the branch `main` is at commit `bbbbbbbb`, committed on
2020-10-01 at 13:05:10 UTC, three commits after the deployed one. -/
def behindClient : Client where
  GetEnvironment _ _ := .ok productionEnvironment
  GetBranchLatestCommit _ _ := .ok ("bbbbbbbb", ⟨1601557510 * 1000000000⟩)
  GetProjectMostRecentTagCommit _ _ := .ok ("bbbbbbbb", ⟨1601557510 * 1000000000⟩)
  GetCommitCountBetweenRefs _ _ _ := .ok 3

/-- The values that a trace sets the behind-commit-count metric to, oldest first. -/
def behindCommitsCountEmitted (trace : List Effect) : List Float64 :=
  trace.filterMap (fun e => match e with
    | .storeSetMetric m =>
      if m.Kind = MetricKind.EnvironmentBehindCommitsCount then some m.Value else none
    | _ => none)

/-- Whether a trace holds a commit-count-between-refs lookup. -/
def commitCountLookupMade (trace : List Effect) : Bool :=
  trace.any (fun e => match e with
    | .ClientGetCommitCountBetweenRefs _ _ _ => true
    | _ => false)

/-- The first pull of `production` against `behindClient`, from an empty Store. -/
def firstPull : Option Error × World LocalStore :=
  pullEnvironmentMetrics localExternals (localExporter behindClient) productionEnvironment
    (localWorld LocalStore.empty)

/-- The values that a trace sets the behind-duration metric to, oldest first. -/
def behindDurationEmitted (trace : List Effect) : List Float64 :=
  trace.filterMap (fun e => match e with
    | .storeSetMetric m =>
      if m.Kind = MetricKind.EnvironmentBehindDurationSeconds then some m.Value else none
    | _ => none)

/-- The environment `staging` of `group/app` as the upstream API returns it: last
deployed from the branch `main` at commit `aaaaaaaa`, the creation time of the
deployment being Go's zero time (January 1, year 1). -/
def stagingEnvironment : Environment :=
  { ProjectName := "group/app", ID := 8, Name := "staging", TagsRegexp := ".*",
    LatestDeployment :=
      { RefKind := RefKindBranch, RefName := "main", CommitShortID := "aaaaaaaa",
        CreatedAt := Time.zeroTime, Duration := 30 * 1000000000,
        Status := "success" } }

/-- An upstream API that returns `staging`, with the branch `main` at commit
`bbbbbbbb`, committed on 2020-10-01 at 13:05:10 UTC, three commits after the deployed
one. -/
def stagingClient : Client where
  GetEnvironment _ _ := .ok stagingEnvironment
  GetBranchLatestCommit _ _ := .ok ("bbbbbbbb", ⟨1601557510 * 1000000000⟩)
  GetProjectMostRecentTagCommit _ _ := .ok ("bbbbbbbb", ⟨1601557510 * 1000000000⟩)
  GetCommitCountBetweenRefs _ _ _ := .ok 3

/-- The pull of `staging` against `stagingClient`, from an empty Store. -/
def stagingPull : Option Error × World LocalStore :=
  pullEnvironmentMetrics localExternals (localExporter stagingClient) stagingEnvironment
    (localWorld LocalStore.empty)

/-! ## Theorems -/

/-! ### Library facts -/

/-- The substring search finds exactly the infixes. -/
theorem containsChars_iff (s substr : List Char) :
    containsChars s substr = true ↔ List.IsInfix substr s := by
  induction s with
  | nil => simp [containsChars, List.infix_nil]
  | cons c cs ih =>
    simp only [containsChars, Bool.or_eq_true, ih, List.infix_cons_iff,
      List.isPrefixOf_iff_prefix]

/-- The nearest integer is within one half. -/
theorem roundHalfEven_abs_sub_le (x : ℚ) : |x - (roundHalfEven x : ℚ)| ≤ 1 / 2 := by
  have h1 := Int.floor_le x
  have h2 := Int.lt_floor_add_one x
  unfold roundHalfEven
  split_ifs <;> rw [abs_le] <;> constructor <;> push_cast <;> linarith

/-- An integer strictly within one half is the nearest integer. -/
theorem roundHalfEven_eq_of_abs_lt (x : ℚ) (m : Int) (h : |x - (m : ℚ)| < 1 / 2) :
    roundHalfEven x = m := by
  have h1 := roundHalfEven_abs_sub_le x
  have h2 : |((roundHalfEven x - m : Int) : ℚ)| < 1 := by
    push_cast
    have : (roundHalfEven x : ℚ) - m = (x - m) - (x - roundHalfEven x) := by ring
    rw [this]
    calc |(x - (m : ℚ)) - (x - (roundHalfEven x : ℚ))|
        ≤ |x - (m : ℚ)| + |x - (roundHalfEven x : ℚ)| := abs_sub _ _
      _ < 1 := by linarith
  have h3 : |roundHalfEven x - m| < 1 := by exact_mod_cast h2
  have h4 := Int.abs_lt_one_iff.mp h3
  omega

/-- The nearest integer is not below an integer that the number is not below. -/
theorem roundHalfEven_ge (x : ℚ) (m : Int) (h : (m : ℚ) ≤ x) : m ≤ roundHalfEven x := by
  have h1 := (abs_le.mp (roundHalfEven_abs_sub_le x)).2
  have h2 : ((m : ℚ) - 1) < (roundHalfEven x : ℚ) := by linarith
  have h3 : m - 1 < roundHalfEven x := by exact_mod_cast h2
  omega

/-- The nearest integer is not above an integer that the number is not above. -/
theorem roundHalfEven_le (x : ℚ) (m : Int) (h : x ≤ (m : ℚ)) : roundHalfEven x ≤ m := by
  have h1 := (abs_le.mp (roundHalfEven_abs_sub_le x)).1
  have h2 : (roundHalfEven x : ℚ) < (m : ℚ) + 1 := by linarith
  have h3 : roundHalfEven x < m + 1 := by exact_mod_cast h2
  omega

/-- In the binade `2^e ≤ q < 2^(e+1)` of the normal range, rounding gives a finite double of that binade (or its upper end), within half a unit in the last place of `q`. -/
theorem Float64.round_normal (q : ℚ) (e : Int) (he1 : -1022 ≤ e) (he2 : e ≤ 1022)
    (hlo : (2 : ℚ) ^ e ≤ q) (hhi : q < (2 : ℚ) ^ (e + 1)) :
    ∃ r : ℚ, Float64.round q = Float64.finite r ∧ (2 : ℚ) ^ e ≤ r ∧ r ≤ (2 : ℚ) ^ (e + 1) ∧
      |q - r| ≤ (2 : ℚ) ^ e / 2 ^ 53 ∧
      r = (roundHalfEven (q / (2 ^ e / 2 ^ 52)) : ℚ) * (2 ^ e / 2 ^ 52) := by
  have hP : (0 : ℚ) < 2 ^ e := by positivity
  have hq : 0 < q := lt_of_lt_of_le hP hlo
  have hlog : Int.log 2 q = e := by
    apply le_antisymm
    · have := (Int.lt_zpow_iff_log_lt (R := ℚ) (b := 2) (by norm_num) (x := e + 1) hq).mp
        (by exact_mod_cast hhi)
      omega
    · exact (Int.zpow_le_iff_le_log (R := ℚ) (b := 2) (by norm_num) hq).mp (by exact_mod_cast hlo)
  have hu : (2 : ℚ) ^ (e - 52) = 2 ^ e / 2 ^ 52 := by
    rw [zpow_sub₀ (by norm_num : (2 : ℚ) ≠ 0)]
    norm_num
  have hhi2 : (2 : ℚ) ^ (e + 1) = 2 ^ e * 2 := by
    rw [zpow_add₀ (by norm_num : (2 : ℚ) ≠ 0)]
    norm_num
  set P : ℚ := 2 ^ e with hPdef
  have hupos : (0 : ℚ) < P / 2 ^ 52 := by positivity
  set n : ℚ := q / (P / 2 ^ 52) with hn
  have hn1 : (2 : ℚ) ^ 52 ≤ n := by
    rw [hn, le_div_iff₀ hupos]
    have : (2 : ℚ) ^ 52 * (P / 2 ^ 52) = P := by field_simp
    rw [this]; exact hlo
  have hn2 : n ≤ (2 : ℚ) ^ 53 := by
    rw [hn, div_le_iff₀ hupos]
    have : (2 : ℚ) ^ 53 * (P / 2 ^ 52) = P * 2 := by field_simp; ring
    rw [this, ← hhi2]; exact le_of_lt hhi
  have hm1 : ((2 : Int) ^ 52) ≤ roundHalfEven n := roundHalfEven_ge n _ (by push_cast; exact hn1)
  have hm2 : roundHalfEven n ≤ ((2 : Int) ^ 53) := roundHalfEven_le n _ (by push_cast; exact hn2)
  have hm1q : (2 : ℚ) ^ 52 ≤ (roundHalfEven n : ℚ) := by exact_mod_cast hm1
  have hm2q : (roundHalfEven n : ℚ) ≤ (2 : ℚ) ^ 53 := by exact_mod_cast hm2
  have hr1 : P ≤ (roundHalfEven n : ℚ) * (P / 2 ^ 52) := by
    have : (2 : ℚ) ^ 52 * (P / 2 ^ 52) = P := by field_simp
    calc P = (2 : ℚ) ^ 52 * (P / 2 ^ 52) := this.symm
      _ ≤ _ := by apply mul_le_mul_of_nonneg_right hm1q (le_of_lt hupos)
  have hr2 : (roundHalfEven n : ℚ) * (P / 2 ^ 52) ≤ P * 2 := by
    have : (2 : ℚ) ^ 53 * (P / 2 ^ 52) = P * 2 := by field_simp; ring
    calc _ ≤ (2 : ℚ) ^ 53 * (P / 2 ^ 52) := by
          apply mul_le_mul_of_nonneg_right hm2q (le_of_lt hupos)
      _ = P * 2 := this
  have hov : ¬ ((2 : ℚ) ^ 1024 ≤ (roundHalfEven n : ℚ) * (P / 2 ^ 52)) := by
    have h1 : P * 2 ≤ (2 : ℚ) ^ (1023 : ℤ) := by
      rw [← hhi2]
      exact zpow_le_zpow_right₀ (by norm_num) (by omega)
    have h2 : (2 : ℚ) ^ (1023 : ℤ) < 2 ^ 1024 := by norm_num
    intro h
    linarith
  refine ⟨(roundHalfEven n : ℚ) * (P / 2 ^ 52), ?_, hr1, ?_, ?_, rfl⟩
  · unfold Float64.round
    have hq0 : q ≠ 0 := ne_of_gt hq
    have hnn : ¬ q < 0 := not_lt.mpr (le_of_lt hq)
    simp only [hq0, if_false, abs_of_pos hq, hlog, max_eq_left he1, hu]
    rw [if_neg hov, if_neg hnn]
  · rw [hhi2]; exact hr2
  · have h := roundHalfEven_abs_sub_le n
    have hq2 : q = n * (P / 2 ^ 52) := by
      rw [hn]; field_simp
    have : q - (roundHalfEven n : ℚ) * (P / 2 ^ 52) = (n - roundHalfEven n) * (P / 2 ^ 52) := by
      nth_rewrite 1 [hq2]; ring
    rw [this, abs_mul, abs_of_pos hupos]
    calc |n - (roundHalfEven n : ℚ)| * (P / 2 ^ 52) ≤ 1 / 2 * (P / 2 ^ 52) := by
          apply mul_le_mul_of_nonneg_right h (le_of_lt hupos)
      _ = P / 2 ^ 53 := by ring
/-- A multiple of the unit in the last place that lies strictly within half a unit of `q` is the double `q` rounds to. -/
theorem Float64.round_eq_of_near (q : ℚ) (e m : Int) (he1 : -1022 ≤ e) (he2 : e ≤ 1022)
    (hlo : (2 : ℚ) ^ e ≤ q) (hhi : q < (2 : ℚ) ^ (e + 1))
    (hnear : |q - (m : ℚ) * (2 ^ e / 2 ^ 52)| < (2 : ℚ) ^ e / 2 ^ 53) :
    Float64.round q = Float64.finite ((m : ℚ) * (2 ^ e / 2 ^ 52)) := by
  obtain ⟨r, hr, _, _, _, hreq⟩ := Float64.round_normal q e he1 he2 hlo hhi
  have hupos : (0 : ℚ) < 2 ^ e / 2 ^ 52 := by positivity
  have hm : roundHalfEven (q / (2 ^ e / 2 ^ 52)) = m := by
    apply roundHalfEven_eq_of_abs_lt
    have : q / (2 ^ e / 2 ^ 52) - (m : ℚ) = (q - (m : ℚ) * (2 ^ e / 2 ^ 52)) / (2 ^ e / 2 ^ 52) := by
      field_simp
      ring
    rw [this, abs_div, abs_of_pos hupos, div_lt_iff₀ hupos]
    calc |q - (m : ℚ) * (2 ^ e / 2 ^ 52)| < (2 : ℚ) ^ e / 2 ^ 53 := hnear
      _ = 1 / 2 * (2 ^ e / 2 ^ 52) := by ring
  rw [hr, hreq, hm]

/-- A number that is not negative rounds to a double that is not negative, or to plus infinity. -/
theorem Float64.round_of_nonneg (q : ℚ) (h : 0 ≤ q) :
    Float64.round q = Float64.posInf ∨ ∃ r : ℚ, 0 ≤ r ∧ Float64.round q = Float64.finite r := by
  unfold Float64.round
  by_cases hq0 : q = 0
  · exact Or.inr ⟨0, le_refl 0, by simp [hq0]⟩
  · have hnn : ¬ q < 0 := not_lt.mpr h
    simp only [hq0, if_false, hnn]
    split_ifs with hov
    · exact Or.inl rfl
    · refine Or.inr ⟨_, ?_, rfl⟩
      apply mul_nonneg
      · have : (0 : Int) ≤ roundHalfEven (|q| / 2 ^ (max (Int.log 2 |q|) (-1022) - 52)) := by
          apply roundHalfEven_ge
          push_cast
          positivity
        exact_mod_cast this
      · positivity

/-- A number that is not positive rounds to a double that is not positive, or to minus infinity. -/
theorem Float64.round_of_nonpos (q : ℚ) (h : q ≤ 0) :
    Float64.round q = Float64.negInf ∨ ∃ r : ℚ, r ≤ 0 ∧ Float64.round q = Float64.finite r := by
  unfold Float64.round
  by_cases hq0 : q = 0
  · exact Or.inr ⟨0, le_refl 0, by simp [hq0]⟩
  · have hneg : q < 0 := lt_of_le_of_ne h hq0
    simp only [hq0, if_false, hneg, if_true]
    split_ifs with hov
    · exact Or.inl rfl
    · refine Or.inr ⟨_, ?_, rfl⟩
      rw [neg_nonpos]
      apply mul_nonneg
      · have : (0 : Int) ≤ roundHalfEven (|q| / 2 ^ (max (Int.log 2 |q|) (-1022) - 52)) := by
          apply roundHalfEven_ge
          push_cast
          positivity
        exact_mod_cast this
      · positivity

/-- An integer from 0 to `2^53` is a double. -/
theorem Float64.round_int_exact (n : Int) (h0 : 0 ≤ n) (h1 : n ≤ 2 ^ 53) :
    Float64.round (n : ℚ) = Float64.finite (n : ℚ) := by
  by_cases hz : n = 0
  · subst hz
    simp [Float64.round]
  have hpos : (0 : ℚ) < (n : ℚ) := by
    have : 0 < n := by omega
    exact_mod_cast this
  have hlo := Int.zpow_log_le_self (R := ℚ) (b := 2) (by norm_num) hpos
  have hhi := Int.lt_zpow_succ_log_self (R := ℚ) (b := 2) (by norm_num) (n : ℚ)
  set e := Int.log 2 (n : ℚ) with he
  have hlo' : (2 : ℚ) ^ e ≤ (n : ℚ) := by exact_mod_cast hlo
  have hhi' : (n : ℚ) < (2 : ℚ) ^ (e + 1) := by exact_mod_cast hhi
  have he0 : 0 ≤ e := by
    have h1n : (1 : ℚ) ≤ (n : ℚ) := by
      have : 1 ≤ n := by omega
      exact_mod_cast this
    have : ((2 : ℕ) : ℚ) ^ (0 : ℤ) ≤ (n : ℚ) := by simpa using h1n
    exact (Int.zpow_le_iff_le_log (R := ℚ) (b := 2) (by norm_num) hpos).mp this
  have he53 : e ≤ 53 := by
    by_contra hc
    have h54 : (54 : ℤ) ≤ e := by omega
    have : (2 : ℚ) ^ (54 : ℤ) ≤ (2 : ℚ) ^ e := zpow_le_zpow_right₀ (by norm_num) h54
    have hn : (n : ℚ) ≤ 2 ^ 53 := by exact_mod_cast h1
    have : (2 : ℚ) ^ (54 : ℤ) ≤ 2 ^ 53 := by linarith
    norm_num at this
  -- the mantissa
  obtain ⟨k, hk⟩ : ∃ k : ℕ, (k : ℤ) = e := ⟨e.toNat, Int.toNat_of_nonneg he0⟩
  have hPk : (2 : ℚ) ^ e = 2 ^ k := by rw [← hk, zpow_natCast]
  by_cases h52 : e ≤ 52
  · obtain ⟨j, hj⟩ : ∃ j : ℕ, j + k = 52 := ⟨52 - k, by omega⟩
    have hexact : ((n * 2 ^ j : Int) : ℚ) * (2 ^ e / 2 ^ 52) = (n : ℚ) := by
      rw [hPk, ← hj]
      push_cast
      field_simp
      ring
    have := Float64.round_eq_of_near (n : ℚ) e (n * 2 ^ j) (by omega) (by omega) hlo' hhi'
      (by rw [hexact]; simp; positivity)
    rw [this, hexact]
  · have he : e = 53 := by omega
    have hn : (n : ℚ) = 2 ^ 53 := by
      apply le_antisymm
      · exact_mod_cast h1
      · rw [he] at hlo'
        norm_num at hlo'
        norm_num
        exact hlo'
    have hexact : (((2 : Int) ^ 52 : Int) : ℚ) * (2 ^ e / 2 ^ 52) = (n : ℚ) := by
      rw [hn, he]
      norm_num
    have := Float64.round_eq_of_near (n : ℚ) e (2 ^ 52) (by omega) (by omega) hlo' hhi'
      (by rw [hexact]; simp; positivity)
    rw [this, hexact]

/-- In the normal range rounding is finite, with a relative error of at most `2^-53`. -/
theorem Float64.round_rel (q : ℚ) (hlo : 1 / 2 ^ 1022 ≤ q) (hhi : q < 2 ^ 1023) :
    ∃ r : ℚ, Float64.round q = Float64.finite r ∧ |q - r| ≤ q / 2 ^ 53 := by
  have hq : 0 < q := lt_of_lt_of_le (by positivity) hlo
  have h1 := Int.zpow_log_le_self (R := ℚ) (b := 2) (by norm_num) hq
  have h2 := Int.lt_zpow_succ_log_self (R := ℚ) (b := 2) (by norm_num) q
  set e := Int.log 2 q with he
  have h1' : (2 : ℚ) ^ e ≤ q := by exact_mod_cast h1
  have h2' : q < (2 : ℚ) ^ (e + 1) := by exact_mod_cast h2
  have he1 : -1022 ≤ e := by
    apply (Int.zpow_le_iff_le_log (R := ℚ) (b := 2) (by norm_num) hq).mp
    have : ((2 : ℕ) : ℚ) ^ (-1022 : ℤ) = 1 / 2 ^ 1022 := by norm_num
    rw [this]; exact hlo
  have he2 : e ≤ 1022 := by
    have : e < 1023 := by
      apply (Int.lt_zpow_iff_log_lt (R := ℚ) (b := 2) (by norm_num) hq).mp
      have : ((2 : ℕ) : ℚ) ^ (1023 : ℤ) = 2 ^ 1023 := by norm_num
      rw [this]; exact hhi
    omega
  obtain ⟨r, hr, _, _, hb, _⟩ := Float64.round_normal q e he1 he2 h1' h2'
  refine ⟨r, hr, le_trans hb ?_⟩
  apply div_le_div_of_nonneg_right h1' (by positivity)

/-- The whole seconds and the remaining nanoseconds of a duration that is not negative. -/
theorem secs_parts (d : Int) (h0 : 0 ≤ d) (h1 : d ≤ 2 ^ 63) :
    0 ≤ Int.tdiv d Second ∧ Int.tdiv d Second ≤ 9223372036 ∧
    0 ≤ Int.tmod d Second ∧ Int.tmod d Second < 1000000000 ∧
    d = 1000000000 * Int.tdiv d Second + Int.tmod d Second := by
  have ha := Int.tdiv_add_tmod d Second
  have hb := Int.tmod_lt_of_pos d (b := Second) (by norm_num [Second])
  have hc := Int.tmod_nonneg (a := d) Second h0
  have hd := Int.tdiv_nonneg (a := d) (b := Second) h0 (by norm_num [Second])
  unfold Second at *
  refine ⟨hd, by omega, hc, hb, by omega⟩

/-- For a duration from 0 to `2^63` nanoseconds, `Seconds` is a finite double within one part in `2^51` of the exact number of seconds. -/
theorem Duration.Seconds_spec (d : Int) (h0 : 0 ≤ d) (h1 : d ≤ 2 ^ 63) :
    ∃ r : ℚ, Duration.Seconds d = Float64.finite r ∧
      |r - (d : ℚ) / 1000000000| ≤ (d : ℚ) / 1000000000 / 2 ^ 51 := by
  obtain ⟨hs0, hs1, hn0, hn1, hd⟩ := secs_parts d h0 h1
  unfold Duration.Seconds
  set sec := Int.tdiv d Second
  set nsec := Int.tmod d Second
  have hA : Float64.ofInt sec = Float64.finite (sec : ℚ) :=
    Float64.round_int_exact sec hs0 (by omega)
  have hB : Float64.ofInt nsec = Float64.finite (nsec : ℚ) :=
    Float64.round_int_exact nsec hn0 (by omega)
  have hsq : (0 : ℚ) ≤ (sec : ℚ) := by exact_mod_cast hs0
  have hsq1 : (sec : ℚ) ≤ 9223372036 := by exact_mod_cast hs1
  have hdq : (d : ℚ) / 1000000000 = (sec : ℚ) + (nsec : ℚ) / 1000000000 := by
    have : (d : ℚ) = 1000000000 * (sec : ℚ) + (nsec : ℚ) := by exact_mod_cast hd
    rw [this]; field_simp; ring
  rw [hA, hB, hdq]
  have hdiv : (Float64.finite (nsec : ℚ)).div (Float64.finite 1000000000)
      = Float64.round ((nsec : ℚ) / 1000000000) := by
    simp [Float64.div]
  rw [hdiv]
  by_cases hz : nsec = 0
  · rw [hz]
    have : Float64.round (((0 : Int) : ℚ) / 1000000000) = Float64.finite 0 := by
      simp [Float64.round]
    rw [this]
    refine ⟨(sec : ℚ), ?_, ?_⟩
    · show Float64.round ((sec : ℚ) + 0) = _
      rw [add_zero]
      exact Float64.round_int_exact sec hs0 (by omega)
    · simp
      positivity
  · have hnq : (1 : ℚ) ≤ (nsec : ℚ) := by
      have : 1 ≤ nsec := by omega
      exact_mod_cast this
    have hnq1 : (nsec : ℚ) < 1000000000 := by exact_mod_cast hn1
    set x : ℚ := (nsec : ℚ) / 1000000000 with hx
    have hx0 : (1 : ℚ) / 1000000000 ≤ x := by
      rw [hx]; apply div_le_div_of_nonneg_right hnq (by norm_num)
    have hx1 : x < 1 := by
      rw [hx, div_lt_one (by norm_num)]; exact hnq1
    obtain ⟨r1, hr1, hb1⟩ := Float64.round_rel x
      (le_trans (by norm_num) hx0) (lt_trans hx1 (by norm_num))
    rw [hr1]
    have hb1' := abs_le.mp hb1
    have hy0 : (1 : ℚ) / 2 ^ 1022 ≤ (sec : ℚ) + r1 := by
      have : (1 : ℚ) / 2 ^ 1022 ≤ 1 / 2000000000 := by norm_num
      have : x / 2 ^ 53 ≤ x / 2 := by
        apply div_le_div_of_nonneg_left (by linarith) (by norm_num) (by norm_num)
      linarith [hb1'.1, hb1'.2]
    have hy1 : (sec : ℚ) + r1 < 2 ^ 1023 := by
      have : x / 2 ^ 53 ≤ x / 2 := by
        apply div_le_div_of_nonneg_left (by linarith) (by norm_num) (by norm_num)
      have : (9223372038 : ℚ) < 2 ^ 1023 := by norm_num
      linarith [hb1'.1, hb1'.2]
    obtain ⟨r2, hr2, hb2⟩ := Float64.round_rel ((sec : ℚ) + r1) hy0 hy1
    refine ⟨r2, ?_, ?_⟩
    · show Float64.round ((sec : ℚ) + r1) = _
      exact hr2
    · have hb2' := abs_le.mp hb2
      have hxpos : 0 < x := by linarith
      have e1 : x / 2 ^ 53 = x * (1 / 2 ^ 53) := by ring
      have e2 : ((sec : ℚ) + r1) / 2 ^ 53 = ((sec : ℚ) + r1) * (1 / 2 ^ 53) := by ring
      have e3 : ((sec : ℚ) + x) / 2 ^ 51 = ((sec : ℚ) + x) * (1 / 2 ^ 51) := by ring
      rw [e1] at hb1'
      rw [e2] at hb2'
      rw [e3, abs_le]
      constructor <;> nlinarith [hb1'.1, hb1'.2, hb2'.1, hb2'.2]

/-- For a whole number of seconds, `Seconds` is exactly that number. -/
theorem Duration.Seconds_whole (k : Int) (h0 : 0 ≤ k) (h1 : k ≤ 9223372036) :
    Duration.Seconds (k * 1000000000) = Float64.finite (k : ℚ) := by
  have hd : Int.tdiv (k * 1000000000) Second = k := by
    rw [Int.tdiv_eq_ediv (by omega) (by norm_num [Second])]
    unfold Second; omega
  have hm : Int.tmod (k * 1000000000) Second = 0 := by
    rw [Int.tmod_eq_emod (by omega) (by norm_num [Second])]
    unfold Second; omega
  unfold Duration.Seconds
  rw [hd, hm]
  have hA : Float64.ofInt k = Float64.finite (k : ℚ) := Float64.round_int_exact k h0 (by omega)
  have hB : Float64.ofInt 0 = Float64.finite 0 := by simp [Float64.ofInt, Float64.round]
  rw [hA, hB]
  have hdiv : (Float64.finite 0).div (Float64.finite 1000000000) = Float64.finite 0 := by
    simp [Float64.div, Float64.round]
  rw [hdiv]
  show Float64.round ((k : ℚ) + 0) = _
  rw [add_zero]
  exact hA

/-- For a positive duration, `Seconds` is greater than zero. -/
theorem Duration.Seconds_pos (d : Int) (h0 : 0 < d) (h1 : d ≤ 2 ^ 63) :
    (Duration.Seconds d).gt Float64.zero = true := by
  obtain ⟨r, hr, hb⟩ := Duration.Seconds_spec d (le_of_lt h0) h1
  have hdq : (0 : ℚ) < (d : ℚ) / 1000000000 := by
    have : (0 : ℚ) < (d : ℚ) := by exact_mod_cast h0
    positivity
  have hb' := abs_le.mp hb
  have e3 : (d : ℚ) / 1000000000 / 2 ^ 51 = (d : ℚ) / 1000000000 * (1 / 2 ^ 51) := by ring
  rw [e3] at hb'
  have hrpos : 0 < r := by nlinarith [hb'.1]
  rw [hr]
  simp [Float64.gt, Float64.zero, hrpos]

/-- For a duration that is not positive, `Seconds` is not greater than zero. -/
theorem Duration.Seconds_nonpos (d : Int) (h0 : d ≤ 0) :
    (Duration.Seconds d).gt Float64.zero = false := by
  have hsec : Int.tdiv d Second ≤ 0 := by
    have h := Int.neg_tdiv (-d) Second
    rw [neg_neg] at h
    rw [h]
    have := Int.tdiv_nonneg (a := -d) (b := Second) (by omega) (by norm_num [Second])
    omega
  have hnsec : Int.tmod d Second ≤ 0 := by
    have h := Int.neg_tdiv (-d) Second
    rw [neg_neg] at h
    have h1 := Int.tdiv_add_tmod d Second
    have h2 := Int.tdiv_add_tmod (-d) Second
    have h3 := Int.tmod_nonneg (a := -d) Second (by omega)
    rw [h] at h1
    have : Second * -(-d).tdiv Second = -(Second * (-d).tdiv Second) := by ring
    rw [this] at h1
    omega
  unfold Duration.Seconds
  have hsq : ((Int.tdiv d Second : Int) : ℚ) ≤ 0 := by exact_mod_cast hsec
  have hnq : ((Int.tmod d Second : Int) : ℚ) ≤ 0 := by exact_mod_cast hnsec
  have hC : (Float64.ofInt (Int.tmod d Second)).div (Float64.finite 1000000000) = Float64.negInf ∨
      ∃ c : ℚ, c ≤ 0 ∧
        (Float64.ofInt (Int.tmod d Second)).div (Float64.finite 1000000000) = Float64.finite c := by
    rcases Float64.round_of_nonpos _ hnq with hB | ⟨b, hb0, hB⟩
    · left
      simp [Float64.ofInt, hB, Float64.div]
    · have hdiv : (Float64.finite b).div (Float64.finite 1000000000)
          = Float64.round (b / 1000000000) := by simp [Float64.div]
      have hbq : b / 1000000000 ≤ 0 := by
        apply div_nonpos_of_nonpos_of_nonneg hb0 (by norm_num)
      unfold Float64.ofInt
      rw [hB, hdiv]
      exact Float64.round_of_nonpos _ hbq
  rcases Float64.round_of_nonpos _ hsq with hA | ⟨a, ha0, hA⟩
  · unfold Float64.ofInt at hC ⊢
    rw [hA]
    rcases hC with hC | ⟨c, _, hC⟩
    · rw [hC]; rfl
    · rw [hC]; rfl
  · unfold Float64.ofInt at hC ⊢
    rw [hA]
    rcases hC with hC | ⟨c, hc0, hC⟩
    · rw [hC]; rfl
    · rw [hC]
      show (Float64.round (a + c)).gt Float64.zero = false
      rcases Float64.round_of_nonpos (a + c) (by linarith) with hD | ⟨r, hr0, hD⟩
      · rw [hD]; rfl
      · rw [hD]
        simp [Float64.gt, Float64.zero, hr0]

/-- The largest `Duration` in seconds, 9223372036.854775807, as the double `Seconds` returns: 4835703278458517 / 2^19. -/
theorem Duration.Seconds_max :
    Duration.Seconds maxDuration = Float64.finite (4835703278458517 / 524288) := by
  have hd : Int.tdiv maxDuration Second = 9223372036 := by decide
  have hm : Int.tmod maxDuration Second = 854775807 := by decide
  unfold Duration.Seconds
  rw [hd, hm]
  have hA : Float64.ofInt 9223372036 = Float64.finite 9223372036 := by
    have := Float64.round_int_exact 9223372036 (by norm_num) (by norm_num)
    simpa [Float64.ofInt] using this
  have hB : Float64.ofInt 854775807 = Float64.finite 854775807 := by
    have := Float64.round_int_exact 854775807 (by norm_num) (by norm_num)
    simpa [Float64.ofInt] using this
  rw [hA, hB]
  have hdiv : (Float64.finite 854775807).div (Float64.finite 1000000000)
      = Float64.finite (3849568005890515 / 4503599627370496) := by
    have h := Float64.round_eq_of_near (854775807 / 1000000000) (-1) 7699136011781030
      (by norm_num) (by norm_num) (by norm_num) (by norm_num)
      (by rw [abs_lt]; constructor <;> norm_num)
    have hv : ((7699136011781030 : Int) : ℚ) * (2 ^ (-1 : ℤ) / 2 ^ 52)
        = 3849568005890515 / 4503599627370496 := by norm_num
    rw [hv] at h
    simp only [Float64.div]
    rw [if_neg (by norm_num)]
    exact h
  rw [hdiv]
  show Float64.round (9223372036 + 3849568005890515 / 4503599627370496) = _
  have h := Float64.round_eq_of_near (9223372036 + 3849568005890515 / 4503599627370496) 33
    4835703278458517 (by norm_num) (by norm_num) (by norm_num) (by norm_num)
    (by rw [abs_lt]; constructor <;> norm_num)
  have hv : ((4835703278458517 : Int) : ℚ) * (2 ^ (33 : ℤ) / 2 ^ 52)
      = 4835703278458517 / 524288 := by norm_num
  rw [hv] at h
  exact h


/-! ### C1, C2 : matchers -/

/-- C1: for a ref of kind branch, tag or merge-request whose enable flag is off,
`isRefMatchingProjectPullRefs` returns (false, no error) whatever `GetRefRegexp` would
answer (the regexp is not consulted); for a ref of any other kind it returns an error,
whatever the flags are. -/
theorem isRefMatchingProjectPullRefs_disabled_or_invalid (pprs : ProjectPullRefs) (ref : Ref) :
    (∀ G, ref.Kind = RefKindBranch → pprs.Branches.Enabled = false →
      isRefMatchingProjectPullRefs G pprs ref = (false, none)) ∧
    (∀ G, ref.Kind = RefKindTag → pprs.Tags.Enabled = false →
      isRefMatchingProjectPullRefs G pprs ref = (false, none)) ∧
    (∀ G, ref.Kind = RefKindMergeRequest → pprs.MergeRequests.Enabled = false →
      isRefMatchingProjectPullRefs G pprs ref = (false, none)) ∧
    (∀ G, ref.Kind ≠ RefKindBranch → ref.Kind ≠ RefKindTag → ref.Kind ≠ RefKindMergeRequest →
      isRefMatchingProjectPullRefs G pprs ref = (false, some ("invalid ref kind " ++ ref.Kind))) := by
  refine ⟨?_, ?_, ?_, ?_⟩
  · intro G hk he
    simp [isRefMatchingProjectPullRefs, hk, he]
  · intro G hk he
    simp [isRefMatchingProjectPullRefs, hk, he, RefKindTag, RefKindBranch]
  · intro G hk he
    simp [isRefMatchingProjectPullRefs, hk, he, RefKindTag, RefKindBranch, RefKindMergeRequest]
  · intro G h1 h2 h3
    simp [isRefMatchingProjectPullRefs, h1, h2, h3]

/-- Witness for C1: a branch ref against a configuration whose branches are disabled
and whose branch regexp is malformed, and a ref of the unknown kind `commit`. -/
theorem isRefMatchingProjectPullRefs_disabled_or_invalid_witness :
    isRefMatchingProjectPullRefs localExternals.GetRefRegexp
        ⟨⟨false, "("⟩, ⟨true, ".*"⟩, ⟨true, ""⟩⟩
        ⟨RefKindBranch, "main", ⟨"group/app", localExternals.DefaultProjectPull⟩⟩
      = (false, none) ∧
    isRefMatchingProjectPullRefs localExternals.GetRefRegexp
        ⟨⟨true, ".*"⟩, ⟨true, ".*"⟩, ⟨true, ""⟩⟩
        ⟨"commit", "main", ⟨"group/app", localExternals.DefaultProjectPull⟩⟩
      = (false, some ("invalid ref kind " ++ "commit")) :=
  ⟨(isRefMatchingProjectPullRefs_disabled_or_invalid _ _).1 _ rfl rfl,
   (isRefMatchingProjectPullRefs_disabled_or_invalid _ _).2.2.2 _
     (by decide) (by decide) (by decide)⟩

/-- C2: when the wildcard has an owner kind and the ref's project name does not
contain the owner name as a substring, `isRefMatchingWilcard` returns (false, no
error); in every other case (owner kind empty, or owner name contained in the project
name) it returns what `isRefMatchingProjectPullRefs` returns on the wildcard's pull
configuration, value and error alike. -/
theorem isRefMatchingWilcard_owner_filter
    (G : ProjectPullRefs → RefKind → Except Error Regexp) (w : Wildcard) (ref : Ref) :
    (w.Owner.Kind ≠ "" → ¬ List.IsInfix w.Owner.Name.toList ref.Project.Name.toList →
      isRefMatchingWilcard G w ref = (false, none)) ∧
    (w.Owner.Kind = "" ∨ List.IsInfix w.Owner.Name.toList ref.Project.Name.toList →
      isRefMatchingWilcard G w ref = isRefMatchingProjectPullRefs G w.Pull.Refs ref) := by
  constructor
  · intro hk hn
    have hc : ¬ stringsContains ref.Project.Name w.Owner.Name = true := by
      rw [stringsContains, containsChars_iff]; exact hn
    simp [isRefMatchingWilcard, hk, hc]
  · intro h
    rcases h with hk | hi
    · simp [isRefMatchingWilcard, hk]
    · have hc : stringsContains ref.Project.Name w.Owner.Name = true := by
        rw [stringsContains, containsChars_iff]; exact hi
      simp [isRefMatchingWilcard, hc]

/-- Witness for C2: an owner `other` against the project `group/app`, and a wildcard
without owner kind. -/
theorem isRefMatchingWilcard_owner_filter_witness :
    isRefMatchingWilcard localExternals.GetRefRegexp
        ⟨⟨"other", "group"⟩, localExternals.DefaultProjectPull⟩
        ⟨RefKindBranch, "main", ⟨"group/app", localExternals.DefaultProjectPull⟩⟩
      = (false, none) ∧
    isRefMatchingWilcard localExternals.GetRefRegexp
        ⟨⟨"other", ""⟩, localExternals.DefaultProjectPull⟩
        ⟨RefKindBranch, "main", ⟨"group/app", localExternals.DefaultProjectPull⟩⟩
      = isRefMatchingProjectPullRefs localExternals.GetRefRegexp
        localExternals.DefaultProjectPull.Refs
        ⟨RefKindBranch, "main", ⟨"group/app", localExternals.DefaultProjectPull⟩⟩ :=
  ⟨(isRefMatchingWilcard_owner_filter _ _ _).1 (by decide) (by decide),
   (isRefMatchingWilcard_owner_filter _ _ _).2 (Or.inl rfl)⟩

/-! ### C3, C4 : pipeline derivation -/

/-- C3, as stated, fails: for a pipeline started 109573 days after its creation the
queued duration is not the difference of the two times in seconds (9467107200, a
number a double holds exactly) but the largest `Duration` in seconds, which
`Duration.Seconds` returns as the double 4835703278458517 / 2^19 (9223372036.85...). -/
theorem NewPipeline_saturated_queued_duration :
    threeCenturiesPipeline.CreatedAt = some ⟨0⟩ ∧
    threeCenturiesPipeline.StartedAt = some ⟨109573 * 86400 * 1000000000⟩ ∧
    Time.Before ⟨0⟩ ⟨109573 * 86400 * 1000000000⟩ = true ∧
    (NewPipeline threeCenturiesPipeline).QueuedDurationSeconds
      = Float64.finite (4835703278458517 / 524288) ∧
    (NewPipeline threeCenturiesPipeline).QueuedDurationSeconds
      ≠ Float64.finite (((109573 * 86400 * 1000000000 : Int) - (0 : Int) : ℚ) / 1000000000) := by
  have hsub : Time.Sub ⟨109573 * 86400 * 1000000000⟩ ⟨0⟩ = maxDuration := by decide
  have h : (NewPipeline threeCenturiesPipeline).QueuedDurationSeconds
      = Float64.finite (4835703278458517 / 524288) := by
    have hb : Time.Before ⟨0⟩ ⟨109573 * 86400 * 1000000000⟩ = true := by decide
    simp only [NewPipeline, threeCenturiesPipeline, hb, if_true, hsub]
    exact Duration.Seconds_max
  refine ⟨rfl, rfl, by decide, h, ?_⟩
  rw [h]
  intro hc
  injection hc with hq
  norm_num at hq

/-- C3, amended: the queued duration of `NewPipeline` is never negative; it is 0 when
`StartedAt` is absent, when `CreatedAt` is absent, or when `StartedAt` is not strictly
after `CreatedAt`.  When `CreatedAt` is strictly before `StartedAt` and the difference
fits a `Duration` (at most `2^63 - 1` nanoseconds), it is that difference in seconds
as `Duration.Seconds` returns it: a double within one part in `2^51` of the exact
number of seconds, and that number itself when the difference is a whole number of
seconds.  When the difference does not fit, it is the largest `Duration` in seconds,
the double 4835703278458517 / 2^19. -/
theorem NewPipeline_queued (gp : GitlabPipeline) :
    (∃ q : ℚ, 0 ≤ q ∧ (NewPipeline gp).QueuedDurationSeconds = Float64.finite q) ∧
    (gp.StartedAt = none → (NewPipeline gp).QueuedDurationSeconds = Float64.finite 0) ∧
    (gp.CreatedAt = none → (NewPipeline gp).QueuedDurationSeconds = Float64.finite 0) ∧
    (∀ c s, gp.CreatedAt = some c → gp.StartedAt = some s → ¬ c.unixNano < s.unixNano →
      (NewPipeline gp).QueuedDurationSeconds = Float64.finite 0) ∧
    (∀ c s, gp.CreatedAt = some c → gp.StartedAt = some s → c.unixNano < s.unixNano →
      s.unixNano - c.unixNano ≤ maxDuration →
      (NewPipeline gp).QueuedDurationSeconds = Duration.Seconds (s.unixNano - c.unixNano) ∧
      (∃ q : ℚ, (NewPipeline gp).QueuedDurationSeconds = Float64.finite q ∧
        |q - ((s.unixNano - c.unixNano : Int) : ℚ) / 1000000000|
          ≤ ((s.unixNano - c.unixNano : Int) : ℚ) / 1000000000 / 2 ^ 51) ∧
      (∀ k : Int, s.unixNano - c.unixNano = k * 1000000000 →
        (NewPipeline gp).QueuedDurationSeconds = Float64.finite (k : ℚ))) ∧
    (∀ c s, gp.CreatedAt = some c → gp.StartedAt = some s →
      maxDuration < s.unixNano - c.unixNano →
      (NewPipeline gp).QueuedDurationSeconds
        = Float64.finite (4835703278458517 / 524288)) := by
  have hzero : Duration.Seconds 0 = Float64.finite 0 := by
    have h := Duration.Seconds_whole 0 (le_refl 0) (by norm_num)
    simpa using h
  have hmax : maxDuration = 9223372036854775807 := by norm_num [maxDuration]
  have hmin : minDuration = -9223372036854775808 := by norm_num [minDuration]
  have hstart : gp.StartedAt = none →
      (NewPipeline gp).QueuedDurationSeconds = Float64.finite 0 := by
    intro h
    simp only [NewPipeline, h]
    exact hzero
  have hcreate : gp.CreatedAt = none →
      (NewPipeline gp).QueuedDurationSeconds = Float64.finite 0 := by
    intro h
    simp only [NewPipeline, h]
    cases gp.StartedAt <;> exact hzero
  have hnot : ∀ c s, gp.CreatedAt = some c → gp.StartedAt = some s →
      ¬ c.unixNano < s.unixNano →
      (NewPipeline gp).QueuedDurationSeconds = Float64.finite 0 := by
    intro c s hc hs hlt
    simp only [NewPipeline, hc, hs, Time.Before, hlt, decide_False]
    exact hzero
  have hfit : ∀ c s, gp.CreatedAt = some c → gp.StartedAt = some s →
      c.unixNano < s.unixNano → s.unixNano - c.unixNano ≤ maxDuration →
      (NewPipeline gp).QueuedDurationSeconds
        = Duration.Seconds (s.unixNano - c.unixNano) := by
    intro c s hc hs hlt hle
    have h1 : ¬ s.unixNano - c.unixNano < minDuration := by omega
    have h2 : ¬ maxDuration < s.unixNano - c.unixNano := by omega
    simp only [NewPipeline, hc, hs, Time.Before, hlt, decide_True, Time.Sub, h1, h2,
      if_true, if_false]
  have hsat : ∀ c s, gp.CreatedAt = some c → gp.StartedAt = some s →
      maxDuration < s.unixNano - c.unixNano →
      (NewPipeline gp).QueuedDurationSeconds
        = Float64.finite (4835703278458517 / 524288) := by
    intro c s hc hs hgt
    have hlt : c.unixNano < s.unixNano := by omega
    have h1 : ¬ s.unixNano - c.unixNano < minDuration := by omega
    simp only [NewPipeline, hc, hs, Time.Before, hlt, decide_True, Time.Sub, h1, hgt,
      if_true, if_false]
    exact Duration.Seconds_max
  have hspec : ∀ c s, gp.CreatedAt = some c → gp.StartedAt = some s →
      c.unixNano < s.unixNano → s.unixNano - c.unixNano ≤ maxDuration →
      ∃ q : ℚ, (NewPipeline gp).QueuedDurationSeconds = Float64.finite q ∧
        |q - ((s.unixNano - c.unixNano : Int) : ℚ) / 1000000000|
          ≤ ((s.unixNano - c.unixNano : Int) : ℚ) / 1000000000 / 2 ^ 51 := by
    intro c s hc hs hlt hle
    obtain ⟨q, hq, hb⟩ := Duration.Seconds_spec (s.unixNano - c.unixNano) (by omega) (by omega)
    exact ⟨q, by rw [hfit c s hc hs hlt hle, hq], hb⟩
  refine ⟨?_, hstart, hcreate, hnot, ?_, hsat⟩
  · cases hc : gp.CreatedAt with
    | none => exact ⟨0, le_refl 0, hcreate hc⟩
    | some c =>
      cases hs : gp.StartedAt with
      | none => exact ⟨0, le_refl 0, hstart hs⟩
      | some s =>
        by_cases hlt : c.unixNano < s.unixNano
        · by_cases hle : s.unixNano - c.unixNano ≤ maxDuration
          · obtain ⟨q, hq, hb⟩ := hspec c s hc hs hlt hle
            refine ⟨q, ?_, hq⟩
            have hT : (0 : ℚ) ≤ ((s.unixNano - c.unixNano : Int) : ℚ) / 1000000000 := by
              have : (0 : ℚ) ≤ ((s.unixNano - c.unixNano : Int) : ℚ) := by
                exact_mod_cast (by omega : (0 : Int) ≤ s.unixNano - c.unixNano)
              positivity
            have hb' := (abs_le.mp hb).1
            have e3 : ((s.unixNano - c.unixNano : Int) : ℚ) / 1000000000 / 2 ^ 51
                = ((s.unixNano - c.unixNano : Int) : ℚ) / 1000000000 * (1 / 2 ^ 51) := by ring
            rw [e3] at hb'
            nlinarith [hb']
          · exact ⟨_, by norm_num, hsat c s hc hs (by omega)⟩
        · exact ⟨0, le_refl 0, hnot c s hc hs hlt⟩
  · intro c s hc hs hlt hle
    refine ⟨hfit c s hc hs hlt hle, hspec c s hc hs hlt hle, ?_⟩
    intro k hk
    rw [hfit c s hc hs hlt hle, hk]
    exact Duration.Seconds_whole k (by omega) (by omega)

/-- Witness for C3: the pipeline of `TestRunningPipeline`, created at 13:04:10 and
started at 13:05:10, has a queued duration of 60 seconds. -/
theorem NewPipeline_queued_witness :
    (NewPipeline runningPipeline).QueuedDurationSeconds = Float64.finite 60 := by
  have h := ((NewPipeline_queued runningPipeline).2.2.2.2.1
    ⟨1601557450 * 1000000000⟩ ⟨1601557510 * 1000000000⟩ rfl rfl (by decide) (by decide)).2.2
    60 (by decide)
  rw [h]
  norm_num

/-- What `ParseFloat` returns together with a syntax error is 0. -/
theorem ParseFloat_syntax_error (s : String)
    (h : (ParseFloat s).2 = some NumErr.ErrSyntax) : (ParseFloat s).1 = Float64.finite 0 := by
  revert h
  unfold ParseFloat
  cases special s.toList with
  | some f => simp
  | none =>
    cases readFloat s.toList with
    | none => simp
    | some l =>
      dsimp only
      split_ifs <;> simp

/-- The coverage string `1e999` is a range error, with value plus infinity. -/
theorem ParseFloat_1e999 : ParseFloat "1e999" = (Float64.posInf, some NumErr.ErrRange) := by
  have hs : special "1e999".toList = none := by decide
  have hr : readFloat "1e999".toList = some ⟨false, 1, false, 999⟩ := by decide
  have hm : float64Overflow ≤ (⟨false, 1, false, 999⟩ : FloatLiteral).magnitude := by
    simp only [FloatLiteral.magnitude, float64Overflow]
    norm_num
  simp only [ParseFloat, hs, hr, hm, if_true]
  rfl

/-- C4, as stated, fails: the coverage string `1e999` is not empty and fails to parse
with a range error, and the coverage of the derived pipeline is plus infinity, not 0. -/
theorem NewPipeline_coverage_range_error :
    hugeCoveragePipeline.Coverage ≠ "" ∧
    (ParseFloat hugeCoveragePipeline.Coverage).2 = some NumErr.ErrRange ∧
    (NewPipeline hugeCoveragePipeline).Coverage = Float64.posInf ∧
    (NewPipeline hugeCoveragePipeline).Coverage ≠ Float64.finite 0 := by
  have hc : (NewPipeline hugeCoveragePipeline).Coverage = Float64.posInf := by
    have hne : hugeCoveragePipeline.Coverage ≠ "" := by decide
    simp only [NewPipeline, hne, ne_eq, not_false_eq_true, if_true]
    show (ParseFloat "1e999").1 = Float64.posInf
    rw [ParseFloat_1e999]
  refine ⟨by decide, ?_, hc, ?_⟩
  · show (ParseFloat "1e999").2 = some NumErr.ErrRange
    rw [ParseFloat_1e999]
  · rw [hc]
    intro h
    cases h

/-- C4, amended: for a pipeline whose coverage string is non-empty, whether it parses
or not, `NewPipeline` returns a Pipeline whose ID, timestamp, durations and status are
derived as usual (they are those of the same pipeline without coverage string), its
coverage being the value `ParseFloat` returned; when the string fails to parse with a
syntax error that coverage is 0. -/
theorem NewPipeline_coverage_parse_failure (gp : GitlabPipeline)
    (hne : gp.Coverage ≠ "") :
    NewPipeline gp
      = { NewPipeline { gp with Coverage := "" } with Coverage := (ParseFloat gp.Coverage).1 } ∧
    (NewPipeline gp).ID = gp.ID ∧
    (NewPipeline gp).Status = gp.Status ∧
    (NewPipeline gp).DurationSeconds = Float64.ofInt gp.Duration ∧
    ((ParseFloat gp.Coverage).2 = some NumErr.ErrSyntax →
      (NewPipeline gp).Coverage = Float64.finite 0) := by
  refine ⟨?_, rfl, rfl, rfl, ?_⟩
  · simp [NewPipeline, hne]
  · intro hs
    simp only [NewPipeline, hne, ne_eq, not_false_eq_true, if_true]
    exact ParseFloat_syntax_error _ hs

/-- Witness for C4: the coverage string `25.6%` is a syntax error and the derived
pipeline has coverage 0. -/
theorem NewPipeline_coverage_parse_failure_witness :
    (NewPipeline percentCoveragePipeline).ID = 24 ∧
    (NewPipeline percentCoveragePipeline).Coverage = Float64.finite 0 :=
  have h := NewPipeline_coverage_parse_failure percentCoveragePipeline (by decide)
  ⟨h.2.1, h.2.2.2.2 (by decide)⟩

/-! ### C5, C6, C7 : event ingestion -/

/-- C5: the ref `processPipelineEvent` handles has the event's project path, and kind
merge-request with the decimal string of the merge-request IID as name when that IID
is not zero, otherwise kind tag when the tag flag is set, otherwise kind branch, the
name being the event's ref in the last two cases.  When the Store reports that this ref
exists, the handler makes exactly two calls: the existence check, and one
`ScheduleTask` of type pull-ref-metrics identified by the ref's key and carrying the
ref; no other task is scheduled, the project is not looked up, nothing is written. -/
theorem processPipelineEvent_known_ref {σ : Type} (X : Externals) (c : Controller σ)
    (e : PipelineEvent) (w : World σ) :
    processPipelineEvent X c e w = triggerRefMetricsPull X c (pipelineEventRef X e) w ∧
    (pipelineEventRef X e).Project.Name = e.PathWithNamespace ∧
    (e.MergeRequestIID ≠ 0 →
      (pipelineEventRef X e).Kind = RefKindMergeRequest ∧
      (pipelineEventRef X e).Name = Itoa e.MergeRequestIID) ∧
    (e.MergeRequestIID = 0 → e.Tag = true →
      (pipelineEventRef X e).Kind = RefKindTag ∧ (pipelineEventRef X e).Name = e.Ref) ∧
    (e.MergeRequestIID = 0 → e.Tag = false →
      (pipelineEventRef X e).Kind = RefKindBranch ∧ (pipelineEventRef X e).Name = e.Ref) ∧
    (c.Store.RefExists w.store (X.RefKey (pipelineEventRef X e)) = (true, none) →
      processPipelineEvent X c e w =
        { store := w.store,
          trace := w.trace ++
            [Effect.RefExists (X.RefKey (pipelineEventRef X e)),
             Effect.ScheduleTask ⟨TaskType.PullRefMetrics, X.RefKey (pipelineEventRef X e),
               [TaskArg.ref (pipelineEventRef X e)]⟩] } ∧
      scheduledTasks (processPipelineEvent X c e w).trace =
        scheduledTasks w.trace ++
          [⟨TaskType.PullRefMetrics, X.RefKey (pipelineEventRef X e),
            [TaskArg.ref (pipelineEventRef X e)]⟩] ∧
      storeWrites (processPipelineEvent X c e w).trace = storeWrites w.trace) := by
  refine ⟨rfl, ?_, ?_, ?_, ?_, ?_⟩
  · simp only [pipelineEventRef, NewRef, NewProject]
  · intro h
    simp [pipelineEventRef, NewRef, h]
  · intro h ht
    simp [pipelineEventRef, NewRef, h, ht]
  · intro h ht
    simp [pipelineEventRef, NewRef, h, ht]
  · intro h
    have hw : processPipelineEvent X c e w =
        { store := w.store,
          trace := w.trace ++
            [Effect.RefExists (X.RefKey (pipelineEventRef X e)),
             Effect.ScheduleTask ⟨TaskType.PullRefMetrics, X.RefKey (pipelineEventRef X e),
               [TaskArg.ref (pipelineEventRef X e)]⟩] } := by
      simp [processPipelineEvent, triggerRefMetricsPull, World.record, ScheduleTask, h]
    refine ⟨hw, ?_, ?_⟩
    · rw [hw]
      simp [scheduledTasks, List.filterMap_append]
    · rw [hw]
      simp [storeWrites, List.filter_append]

/-- Witness for C5: the spec's example.  A pipeline event for `group/app`, ref `main`,
no merge request, not a tag, on a Store that tracks that branch: one pull-ref-metrics
task is scheduled, under the key `group/app:branch:main`. -/
theorem processPipelineEvent_known_ref_witness :
    scheduledTasks
        (processPipelineEvent localExternals (localController []) mainBranchEvent
          (localWorld mainBranchStore)).trace
      = scheduledTasks (localWorld mainBranchStore).trace ++
        [⟨TaskType.PullRefMetrics, "group/app:branch:main",
          [TaskArg.ref ⟨RefKindBranch, "main", ⟨"group/app", localExternals.DefaultProjectPull⟩⟩]⟩] :=
  ((processPipelineEvent_known_ref localExternals (localController []) mainBranchEvent
    (localWorld mainBranchStore)).2.2.2.2.2 (by decide)).2.1

/-- The wildcard loop leaves the Store alone and appends, for the wildcards from
index `id` on, the discovery tasks of those the matcher accepts. -/
theorem scheduleWildcards_eq {σ : Type} (matcher : Wildcard → Bool × Option Error)
    (wildcards : List Wildcard) (id : Nat) (w : World σ) :
    scheduleWildcards matcher id wildcards w =
      { store := w.store,
        trace := w.trace ++ (wildcards.enumFrom id).filterMap (fun iw =>
          if matcher iw.2 = (true, none) then
            some (Effect.ScheduleTask
              ⟨TaskType.PullProjectsFromWildcard, Itoa iw.1,
                [TaskArg.str (Itoa iw.1), TaskArg.wildcard iw.2]⟩)
          else none) } := by
  induction wildcards generalizing id w with
  | nil => simp [scheduleWildcards]
  | cons wc rest ih =>
    rcases hm : matcher wc with ⟨b, err⟩
    cases err with
    | some err =>
      simp [scheduleWildcards, hm, ih, List.enumFrom]
    | none =>
      cases b with
      | true =>
        simp [scheduleWildcards, hm, ih, List.enumFrom, ScheduleTask, World.record]
      | false =>
        simp [scheduleWildcards, hm, ih, List.enumFrom]

/-- C6: for a ref (resp. an environment) that the Store reports as unknown and whose
project the Store reports as unknown too, `triggerRefMetricsPull` (resp.
`triggerEnvironmentMetricsPull`) makes the two existence checks and then schedules
exactly one discover-projects-from-wildcard task per configured wildcard on which the
wildcard matcher returns (true, no error), in configuration order, identified by the
decimal index of the wildcard; a wildcard on which the matcher fails is skipped and
the later ones are still evaluated; no pull task is scheduled and nothing is written
to the Store.  With no wildcard configured no task is scheduled. -/
theorem trigger_unknown_project_schedules_wildcards {σ : Type} (X : Externals)
    (c : Controller σ) (w : World σ) :
    (∀ ref : Ref,
      c.Store.RefExists w.store (X.RefKey ref) = (false, none) →
      c.Store.ProjectExists w.store (X.ProjectKey (NewProject X ref.Project.Name))
        = (false, none) →
      triggerRefMetricsPull X c ref w =
        { store := w.store,
          trace := w.trace ++
            [Effect.RefExists (X.RefKey ref),
             Effect.ProjectExists (X.ProjectKey (NewProject X ref.Project.Name))] ++
            matchingWildcardTasks (fun wc => isRefMatchingWilcard X.GetRefRegexp wc ref)
              c.Wildcards } ∧
      (c.Wildcards = [] →
        scheduledTasks (triggerRefMetricsPull X c ref w).trace = scheduledTasks w.trace)) ∧
    (∀ env : Environment,
      c.Store.EnvironmentExists w.store (X.EnvironmentKey env) = (false, none) →
      c.Store.ProjectExists w.store (X.ProjectKey (NewProject X env.ProjectName))
        = (false, none) →
      triggerEnvironmentMetricsPull X c env w =
        { store := w.store,
          trace := w.trace ++
            [Effect.EnvironmentExists (X.EnvironmentKey env),
             Effect.ProjectExists (X.ProjectKey (NewProject X env.ProjectName))] ++
            matchingWildcardTasks (fun wc => isEnvMatchingWilcard X.Compile wc env)
              c.Wildcards } ∧
      (c.Wildcards = [] →
        scheduledTasks (triggerEnvironmentMetricsPull X c env w).trace
          = scheduledTasks w.trace)) := by
  constructor
  · intro ref hr hp
    have hw : triggerRefMetricsPull X c ref w =
        { store := w.store,
          trace := w.trace ++
            [Effect.RefExists (X.RefKey ref),
             Effect.ProjectExists (X.ProjectKey (NewProject X ref.Project.Name))] ++
            matchingWildcardTasks (fun wc => isRefMatchingWilcard X.GetRefRegexp wc ref)
              c.Wildcards } := by
      cases hws : c.Wildcards with
      | nil =>
        simp [triggerRefMetricsPull, World.record, hr, hp, hws, matchingWildcardTasks]
      | cons wc rest =>
        simp [triggerRefMetricsPull, World.record, hr, hp, hws, matchingWildcardTasks,
          scheduleWildcards_eq, List.enum]
    refine ⟨hw, ?_⟩
    intro hws
    rw [hw, hws]
    simp [matchingWildcardTasks, scheduledTasks, List.filterMap_append]
  · intro env hr hp
    have hw : triggerEnvironmentMetricsPull X c env w =
        { store := w.store,
          trace := w.trace ++
            [Effect.EnvironmentExists (X.EnvironmentKey env),
             Effect.ProjectExists (X.ProjectKey (NewProject X env.ProjectName))] ++
            matchingWildcardTasks (fun wc => isEnvMatchingWilcard X.Compile wc env)
              c.Wildcards } := by
      cases hws : c.Wildcards with
      | nil =>
        simp [triggerEnvironmentMetricsPull, World.record, hr, hp, hws, matchingWildcardTasks]
      | cons wc rest =>
        simp [triggerEnvironmentMetricsPull, World.record, hr, hp, hws, matchingWildcardTasks,
          scheduleWildcards_eq, List.enum]
    refine ⟨hw, ?_⟩
    intro hws
    rw [hw, hws]
    simp [matchingWildcardTasks, scheduledTasks, List.filterMap_append]

/-- Witness for C6: on an empty Store and the three sample wildcards, a ref of
`group/unlisted` has the first wildcard skipped on its malformed regexp, the second
rejected on its owner, and one discovery task scheduled for the third under the
identifier `2`; with no wildcard configured an environment of `group/unlisted` has no
task scheduled. -/
theorem trigger_unknown_project_schedules_wildcards_witness :
    scheduledTasks
        (triggerRefMetricsPull localExternals (localController sampleWildcards) unlistedRef
          (localWorld LocalStore.empty)).trace
      = [⟨TaskType.PullProjectsFromWildcard, "2",
          [TaskArg.str "2",
           TaskArg.wildcard
            ⟨⟨"", ""⟩, ⟨⟨⟨true, ".*"⟩, ⟨true, ".*"⟩, ⟨false, ""⟩⟩, ⟨true, ".*"⟩⟩⟩]⟩] ∧
    scheduledTasks
        (triggerEnvironmentMetricsPull localExternals (localController []) unlistedEnvironment
          (localWorld LocalStore.empty)).trace
      = [] := by
  constructor
  · rw [((trigger_unknown_project_schedules_wildcards localExternals
      (localController sampleWildcards) (localWorld LocalStore.empty)).1 unlistedRef
      (by decide) (by decide)).1]
    decide
  · exact ((trigger_unknown_project_schedules_wildcards localExternals
      (localController []) (localWorld LocalStore.empty)).2 unlistedEnvironment
      (by decide) (by decide)).2 rfl

/-- C7: for a ref the Store reports as unknown whose project the Store reports as
known and returns as `p`, `triggerRefMetricsPull` checks the ref against the pull-refs
configuration of `p`, whatever the wildcards are.  If the check returns (true, no
error), the only write is `SetRef` of the ref with `p` attached as its project and,
when that write succeeds, exactly one pull-ref-metrics task is scheduled after it, for
that ref; if the write fails nothing is scheduled.  If the check returns false or an
error, no task is scheduled and the Store is left as it was. -/
theorem triggerRefMetricsPull_known_project {σ : Type} (X : Externals) (c : Controller σ)
    (ref : Ref) (w : World σ) (p : Project)
    (hr : c.Store.RefExists w.store (X.RefKey ref) = (false, none))
    (hp : c.Store.ProjectExists w.store (X.ProjectKey (NewProject X ref.Project.Name))
      = (true, none))
    (hg : c.Store.GetProject w.store (NewProject X ref.Project.Name) = (p, none)) :
    (∀ wildcards : List Wildcard,
      triggerRefMetricsPull X { c with Wildcards := wildcards } ref w
        = triggerRefMetricsPull X c ref w) ∧
    (isRefMatchingProjectPullRefs X.GetRefRegexp p.Pull.Refs ref = (true, none) →
      (∀ st, c.Store.SetRef w.store { ref with Project := p } = (st, none) →
        triggerRefMetricsPull X c ref w =
          { store := st,
            trace := w.trace ++
              [Effect.RefExists (X.RefKey ref),
               Effect.ProjectExists (X.ProjectKey (NewProject X ref.Project.Name)),
               Effect.GetProject (NewProject X ref.Project.Name),
               Effect.SetRef { ref with Project := p },
               Effect.ScheduleTask ⟨TaskType.PullRefMetrics,
                 X.RefKey { ref with Project := p },
                 [TaskArg.ref { ref with Project := p }]⟩] }) ∧
      (∀ st err, c.Store.SetRef w.store { ref with Project := p } = (st, some err) →
        triggerRefMetricsPull X c ref w =
          { store := st,
            trace := w.trace ++
              [Effect.RefExists (X.RefKey ref),
               Effect.ProjectExists (X.ProjectKey (NewProject X ref.Project.Name)),
               Effect.GetProject (NewProject X ref.Project.Name),
               Effect.SetRef { ref with Project := p }] })) ∧
    (isRefMatchingProjectPullRefs X.GetRefRegexp p.Pull.Refs ref ≠ (true, none) →
      triggerRefMetricsPull X c ref w =
        { store := w.store,
          trace := w.trace ++
            [Effect.RefExists (X.RefKey ref),
             Effect.ProjectExists (X.ProjectKey (NewProject X ref.Project.Name)),
             Effect.GetProject (NewProject X ref.Project.Name)] }) := by
  refine ⟨?_, ?_, ?_⟩
  · intro wildcards
    simp [triggerRefMetricsPull, World.record, hr, hp, hg]
  · intro hm
    constructor
    · intro st hs
      simp [triggerRefMetricsPull, World.record, ScheduleTask, hr, hp, hg, hm, hs]
    · intro st err hs
      simp [triggerRefMetricsPull, World.record, hr, hp, hg, hm, hs]
  · intro hm
    rcases hc : isRefMatchingProjectPullRefs X.GetRefRegexp p.Pull.Refs ref with ⟨b, err⟩
    cases err with
    | some err =>
      simp [triggerRefMetricsPull, World.record, hr, hp, hg, hc]
    | none =>
      cases b with
      | true => exact absurd hc hm
      | false =>
        simp [triggerRefMetricsPull, World.record, hr, hp, hg, hc]

/-- Witness for C7: on a Store that knows `group/app`, whose configuration pulls the
branches containing `mai` and no tag, the branch `main` is written with the stored
project attached and then scheduled, the wildcards being left alone; the tag `v1` is
dropped and the Store stays as it was. -/
theorem triggerRefMetricsPull_known_project_witness :
    triggerRefMetricsPull localExternals (localController sampleWildcards) appMainRef
        (localWorld appProjectStore)
      = { store := { appProjectStore with
            refs := [("group/app:branch:main", ⟨RefKindBranch, "main", appProject⟩)] },
          trace :=
            [Effect.RefExists "group/app:branch:main",
             Effect.ProjectExists "group/app",
             Effect.GetProject (NewProject localExternals "group/app"),
             Effect.SetRef ⟨RefKindBranch, "main", appProject⟩,
             Effect.ScheduleTask ⟨TaskType.PullRefMetrics, "group/app:branch:main",
               [TaskArg.ref ⟨RefKindBranch, "main", appProject⟩]⟩] } ∧
    triggerRefMetricsPull localExternals (localController sampleWildcards) appTagRef
        (localWorld appProjectStore)
      = { store := appProjectStore,
          trace :=
            [Effect.RefExists "group/app:tag:v1",
             Effect.ProjectExists "group/app",
             Effect.GetProject (NewProject localExternals "group/app")] } :=
  ⟨((triggerRefMetricsPull_known_project localExternals (localController sampleWildcards)
      appMainRef (localWorld appProjectStore) appProject rfl rfl rfl).2.1 (by decide)).1 _ rfl,
   (triggerRefMetricsPull_known_project localExternals (localController sampleWildcards)
      appTagRef (localWorld appProjectStore) appProject rfl rfl rfl).2.2 (by decide)⟩

/-! ### C8, C10 : the environment pull -/

/-- C8, as stated, fails: when the environment is fetched and the latest commit of its
branch is not, the pull returns the error of the failed fetch, but the Store, empty
before the pull, holds the environment after it. -/
theorem pullEnvironmentMetrics_keeps_environment_on_failure :
    failingBranchClient.GetBranchLatestCommit "group/app" "main" = .error "502 Bad Gateway" ∧
    (pullEnvironmentMetrics localExternals (localExporter failingBranchClient)
      productionEnvironment (localWorld LocalStore.empty)).1 = some "502 Bad Gateway" ∧
    (pullEnvironmentMetrics localExternals (localExporter failingBranchClient)
      productionEnvironment (localWorld LocalStore.empty)).2.store
      = { LocalStore.empty with
          environments := [("group/app:production", productionEnvironment)] } ∧
    (pullEnvironmentMetrics localExternals (localExporter failingBranchClient)
      productionEnvironment (localWorld LocalStore.empty)).2.store ≠ LocalStore.empty := by
  have hs : (pullEnvironmentMetrics localExternals (localExporter failingBranchClient)
      productionEnvironment (localWorld LocalStore.empty)).2.store
      = { LocalStore.empty with
          environments := [("group/app:production", productionEnvironment)] } := rfl
  refine ⟨rfl, rfl, hs, ?_⟩
  rw [hs]
  intro h
  have he := congrArg LocalStore.environments h
  simp [LocalStore.empty] at he

/-- C8, amended: when an upstream fetch made during the pull fails,
`pullEnvironmentMetrics` returns that error and has written no metric.  If the failed
fetch is that of the environment, nothing has been written and the Store is the one
before the pull.  If it is a later fetch (latest commit of the branch, most recent tag
commit, commit count between refs), the Store has received one write, `SetEnvironment`
of the environment just fetched. -/
theorem pullEnvironmentMetrics_failed_fetch {σ : Type} (X : Externals) (E : Exporter σ)
    (env : Environment) (w : World σ) :
    (∀ err, E.gitlabClient.GetEnvironment env.ProjectName env.ID = .error err →
      pullEnvironmentMetrics X E env w =
        (some err,
          { store := w.store,
            trace := w.trace ++ [Effect.ClientGetEnvironment env.ProjectName env.ID] })) ∧
    (∀ fetched st, E.gitlabClient.GetEnvironment env.ProjectName env.ID = .ok fetched →
      E.store.SetEnvironment w.store fetched = (st, none) →
      (∀ err, fetched.LatestDeployment.RefKind = RefKindBranch →
        E.gitlabClient.GetBranchLatestCommit fetched.ProjectName
          fetched.LatestDeployment.RefName = .error err →
        pullEnvironmentMetrics X E env w =
          (some err,
            { store := st,
              trace := w.trace ++
                [Effect.ClientGetEnvironment env.ProjectName env.ID,
                 Effect.SetEnvironment fetched,
                 Effect.ClientGetBranchLatestCommit fetched.ProjectName
                   fetched.LatestDeployment.RefName] })) ∧
      (∀ err, fetched.LatestDeployment.RefKind = RefKindTag →
        E.gitlabClient.GetProjectMostRecentTagCommit fetched.ProjectName
          fetched.TagsRegexp = .error err →
        pullEnvironmentMetrics X E env w =
          (some err,
            { store := st,
              trace := w.trace ++
                [Effect.ClientGetEnvironment env.ProjectName env.ID,
                 Effect.SetEnvironment fetched,
                 Effect.ClientGetProjectMostRecentTagCommit fetched.ProjectName
                   fetched.TagsRegexp] })) ∧
      (∀ infoLabels commitDate err,
        (latestCommit X E.gitlabClient fetched).2 = .ok (infoLabels, commitDate) →
        infoLabels.get "latest_commit_short_id" ≠ infoLabels.get "current_commit_short_id" →
        E.store.MetricExists st (X.MetricKey
          { Kind := MetricKind.EnvironmentInformation,
            Labels := X.DefaultLabelsValues fetched, Value := Float64.zero }) = (false, none) →
        E.gitlabClient.GetCommitCountBetweenRefs fetched.ProjectName
          (infoLabels.get "current_commit_short_id")
          (infoLabels.get "latest_commit_short_id") = .error err →
        (pullEnvironmentMetrics X E env w).1 = some err ∧
        (pullEnvironmentMetrics X E env w).2.store = st ∧
        storeWrites (pullEnvironmentMetrics X E env w).2.trace
          = storeWrites w.trace ++ [Effect.SetEnvironment fetched])) := by
  constructor
  · intro err he
    simp [pullEnvironmentMetrics, World.record, he]
  · intro fetched st he hs
    refine ⟨?_, ?_, ?_⟩
    · intro err hk hf
      simp [pullEnvironmentMetrics, World.record, he, hs, latestCommit, hk, hf]
    · intro err hk hf
      have hnb : ¬ RefKindTag = RefKindBranch := by decide
      simp [pullEnvironmentMetrics, World.record, he, hs, latestCommit, hk, hf, hnb]
    · intro infoLabels commitDate err hl hne hm hc
      have hpair : latestCommit X E.gitlabClient fetched
          = ((latestCommit X E.gitlabClient fetched).1, .ok (infoLabels, commitDate)) := by
        rw [← hl]
      have hcalls : storeWrites (latestCommit X E.gitlabClient fetched).1 = [] := by
        unfold latestCommit
        split_ifs <;> simp [storeWrites]
      have hres : pullEnvironmentMetrics X E env w =
          (some err,
            { store := st,
              trace := w.trace ++
                [Effect.ClientGetEnvironment env.ProjectName env.ID,
                 Effect.SetEnvironment fetched] ++
                (latestCommit X E.gitlabClient fetched).1 ++
                [Effect.MetricExists (X.MetricKey
                  { Kind := MetricKind.EnvironmentInformation,
                    Labels := X.DefaultLabelsValues fetched, Value := Float64.zero }),
                 Effect.ClientGetCommitCountBetweenRefs fetched.ProjectName
                  (infoLabels.get "current_commit_short_id")
                  (infoLabels.get "latest_commit_short_id")] }) := by
        unfold pullEnvironmentMetrics
        simp only [he, hs, World.record]
        rw [hpair]
        simp [behindCommitCount, hne, hm, hc]
      rw [hres]
      refine ⟨rfl, rfl, ?_⟩
      simp [storeWrites, List.filter_append] at hcalls ⊢
      exact hcalls

/-- Witness for C8: on an unreachable upstream API the pull of `production` returns
the error and leaves the empty Store empty; when only the branch's latest commit
cannot be fetched, it returns the error after one write, that of the environment. -/
theorem pullEnvironmentMetrics_failed_fetch_witness :
    pullEnvironmentMetrics localExternals (localExporter unreachableClient)
        productionEnvironment (localWorld LocalStore.empty)
      = (some "502 Bad Gateway",
          { store := LocalStore.empty,
            trace := [Effect.ClientGetEnvironment "group/app" 7] }) ∧
    pullEnvironmentMetrics localExternals (localExporter failingBranchClient)
        productionEnvironment (localWorld LocalStore.empty)
      = (some "502 Bad Gateway",
          { store := { LocalStore.empty with
              environments := [("group/app:production", productionEnvironment)] },
            trace :=
              [Effect.ClientGetEnvironment "group/app" 7,
               Effect.SetEnvironment productionEnvironment,
               Effect.ClientGetBranchLatestCommit "group/app" "main"] }) :=
  ⟨(pullEnvironmentMetrics_failed_fetch localExternals (localExporter unreachableClient)
      productionEnvironment (localWorld LocalStore.empty)).1 _ rfl,
   ((pullEnvironmentMetrics_failed_fetch localExternals (localExporter failingBranchClient)
      productionEnvironment (localWorld LocalStore.empty)).2 productionEnvironment _
        rfl rfl).1 _ rfl rfl⟩

/-- The calls of the latest-commit step hold no commit-count lookup and set no
metric. -/
theorem latestCommit_calls (X : Externals) (client : Client) (env : Environment) :
    commitCountLookupMade (latestCommit X client env).1 = false ∧
    behindCommitsCountEmitted (latestCommit X client env).1 = [] := by
  unfold latestCommit
  split_ifs <;> simp [commitCountLookupMade, behindCommitsCountEmitted]

/-- The commit-count step, when it succeeds: the lookup is among its calls exactly
when the identifiers differ and the Store reports no information metric; its result is
the count looked up, or zero without lookup; it sets no metric itself. -/
theorem behindCommitCount_ok {σ : Type} (X : Externals) (E : Exporter σ) (env : Environment)
    (infoLabels : Labels) (st : σ) (calls : List Effect) (count : Float64)
    (h : behindCommitCount X E env infoLabels st = (calls, .ok count)) :
    (commitCountLookupMade calls = true ↔
      (infoLabels.get "latest_commit_short_id" ≠ infoLabels.get "current_commit_short_id" ∧
       E.store.MetricExists st (X.MetricKey
        { Kind := MetricKind.EnvironmentInformation,
          Labels := X.DefaultLabelsValues env, Value := Float64.zero }) = (false, none))) ∧
    (commitCountLookupMade calls = true →
      ∃ n, E.gitlabClient.GetCommitCountBetweenRefs env.ProjectName
          (infoLabels.get "current_commit_short_id")
          (infoLabels.get "latest_commit_short_id") = .ok n ∧
        count = Float64.ofInt n) ∧
    (commitCountLookupMade calls = false → count = Float64.zero) ∧
    behindCommitsCountEmitted calls = [] := by
  unfold behindCommitCount at h
  by_cases hid : infoLabels.get "latest_commit_short_id"
      = infoLabels.get "current_commit_short_id"
  · simp only [hid, ne_eq, not_true_eq_false, if_false, Prod.mk.injEq,
      Except.ok.injEq] at h
    obtain ⟨hc, hv⟩ := h
    subst hc hv
    simp [commitCountLookupMade, behindCommitsCountEmitted, hid]
  · simp only [ne_eq, hid, not_false_eq_true, if_true] at h
    rcases hm : E.store.MetricExists st (X.MetricKey
        { Kind := MetricKind.EnvironmentInformation,
          Labels := X.DefaultLabelsValues env, Value := Float64.zero }) with ⟨b, err⟩
    rw [hm] at h
    cases err with
    | some err => simp at h
    | none =>
      cases b with
      | true =>
        simp only [Prod.mk.injEq, Except.ok.injEq] at h
        obtain ⟨hc, hv⟩ := h
        subst hc hv
        simp [commitCountLookupMade, behindCommitsCountEmitted]
      | false =>
        cases hg : E.gitlabClient.GetCommitCountBetweenRefs env.ProjectName
            (infoLabels.get "current_commit_short_id")
            (infoLabels.get "latest_commit_short_id") with
        | error err => simp [hg] at h
        | ok n =>
          simp only [hg, Prod.mk.injEq, Except.ok.injEq] at h
          obtain ⟨hc, hv⟩ := h
          subst hc hv
          simp [commitCountLookupMade, behindCommitsCountEmitted, hid]

/-- C10: in a successful pull (`t` being the calls it makes, after fetching and storing
the environment `fetched`), the commit-count-between-refs lookup is made if and only if
the latest commit identifier differs from the current one and the Store reports that
no environment-information metric exists under the key of the environment's default
labels; the behind-commit-count emitted is the count that lookup returned when it is
made, and 0 when it is not made, in particular when the identifiers are equal. -/
theorem pullEnvironmentMetrics_commit_count_lookup {σ : Type} (X : Externals)
    (E : Exporter σ) (env : Environment) (w w' : World σ)
    (h : pullEnvironmentMetrics X E env w = (none, w')) :
    ∃ fetched st infoLabels commitDate t,
      E.gitlabClient.GetEnvironment env.ProjectName env.ID = .ok fetched ∧
      E.store.SetEnvironment w.store fetched = (st, none) ∧
      (latestCommit X E.gitlabClient fetched).2 = .ok (infoLabels, commitDate) ∧
      w'.trace = w.trace ++ t ∧
      (commitCountLookupMade t = true ↔
        (infoLabels.get "latest_commit_short_id" ≠ infoLabels.get "current_commit_short_id" ∧
         E.store.MetricExists st (X.MetricKey
          { Kind := MetricKind.EnvironmentInformation,
            Labels := X.DefaultLabelsValues fetched, Value := Float64.zero })
          = (false, none))) ∧
      (commitCountLookupMade t = true →
        ∃ n, E.gitlabClient.GetCommitCountBetweenRefs fetched.ProjectName
            (infoLabels.get "current_commit_short_id")
            (infoLabels.get "latest_commit_short_id") = .ok n ∧
          behindCommitsCountEmitted t = [Float64.ofInt n]) ∧
      (commitCountLookupMade t = false → behindCommitsCountEmitted t = [Float64.finite 0]) ∧
      (infoLabels.get "latest_commit_short_id" = infoLabels.get "current_commit_short_id" →
        behindCommitsCountEmitted t = [Float64.finite 0]) := by
  unfold pullEnvironmentMetrics at h
  cases he : E.gitlabClient.GetEnvironment env.ProjectName env.ID with
  | error err => simp [he] at h
  | ok fetched =>
    rcases hs : E.store.SetEnvironment w.store fetched with ⟨st, serr⟩
    cases serr with
    | some err => simp [he, World.record, hs] at h
    | none =>
      rcases hl : latestCommit X E.gitlabClient fetched with ⟨calls, latest⟩
      cases latest with
      | error err => simp [he, World.record, hs, hl] at h
      | ok lc =>
        obtain ⟨infoLabels, commitDate⟩ := lc
        rcases hb : behindCommitCount X E fetched infoLabels st with ⟨calls2, counted⟩
        cases counted with
        | error err => simp [he, World.record, hs, hl, hb] at h
        | ok count =>
          simp only [he, World.record, hs, hl, hb, Prod.mk.injEq, true_and] at h
          obtain ⟨hlookup, hmade, hskip, hnone⟩ := behindCommitCount_ok X E fetched infoLabels st
            calls2 count hb
          have hcalls := latestCommit_calls X E.gitlabClient fetched
          rw [hl] at hcalls
          obtain ⟨hcl, hce⟩ := hcalls
          simp only at hcl hce
          obtain ⟨t, ht⟩ : ∃ t : List Effect, t =
              [Effect.ClientGetEnvironment env.ProjectName env.ID,
                Effect.SetEnvironment fetched] ++ calls ++ calls2 ++
              [Effect.storeSetMetric
                { Kind := MetricKind.EnvironmentBehindCommitsCount,
                  Labels := X.DefaultLabelsValues fetched, Value := count },
               Effect.storeSetMetric
                { Kind := MetricKind.EnvironmentBehindDurationSeconds,
                  Labels := X.DefaultLabelsValues fetched,
                  Value := behindDurationSeconds commitDate fetched },
               Effect.storeSetMetric
                { Kind := MetricKind.EnvironmentDeploymentDurationSeconds,
                  Labels := X.DefaultLabelsValues fetched,
                  Value := fetched.LatestDeployment.Duration.Seconds },
               Effect.emitStatusMetric MetricKind.EnvironmentDeploymentStatus
                (X.DefaultLabelsValues fetched) E.statusesList
                fetched.LatestDeployment.Status true,
               Effect.storeSetMetric
                { Kind := MetricKind.EnvironmentDeploymentTimestamp,
                  Labels := X.DefaultLabelsValues fetched,
                  Value := Float64.ofInt fetched.LatestDeployment.CreatedAt.Unix },
               Effect.storeSetMetric
                { Kind := MetricKind.EnvironmentInformation, Labels := infoLabels,
                  Value := Float64.finite 1 }] := ⟨_, rfl⟩
          have htr : w'.trace = w.trace ++ t := by
            rw [← h, ht]
            simp [emitEnvironmentMetrics, Exporter.setMetric]
          have hany : commitCountLookupMade t = commitCountLookupMade calls2 := by
            rw [ht]
            unfold commitCountLookupMade at hcl ⊢
            simp [List.any_append, hcl]
          have hem : behindCommitsCountEmitted t = [count] := by
            rw [ht]
            unfold behindCommitsCountEmitted at hce hnone ⊢
            simp [List.filterMap_append, hce, hnone]
          refine ⟨fetched, st, infoLabels, commitDate, t, rfl, hs, by rw [hl], htr, ?_, ?_, ?_, ?_⟩
          · rw [hany]
            exact hlookup
          · intro hm
            rw [hany] at hm
            obtain ⟨n, hn, hc⟩ := hmade hm
            exact ⟨n, hn, by rw [hem, hc]⟩
          · intro hm
            rw [hany] at hm
            rw [hem, hskip hm]
            rfl
          · intro hid
            have hm : commitCountLookupMade calls2 = false := by
              cases hc : commitCountLookupMade calls2 with
              | false => rfl
              | true => exact absurd hid (hlookup.mp hc).1
            rw [hem, hskip hm]
            rfl

/-- Witness for C10: the first pull of `production` against `behindClient`, from an
empty Store, succeeds, so the statement of C10 holds of the calls it made. -/
theorem pullEnvironmentMetrics_commit_count_lookup_witness :
    pullEnvironmentMetrics localExternals (localExporter behindClient) productionEnvironment
        (localWorld LocalStore.empty) = (none, firstPull.2) ∧
    ∃ fetched st infoLabels commitDate t,
      behindClient.GetEnvironment "group/app" 7 = .ok fetched ∧
      localStore.SetEnvironment LocalStore.empty fetched = (st, none) ∧
      (latestCommit localExternals behindClient fetched).2 = .ok (infoLabels, commitDate) ∧
      firstPull.2.trace = [] ++ t ∧
      (commitCountLookupMade t = true ↔
        (infoLabels.get "latest_commit_short_id" ≠ infoLabels.get "current_commit_short_id" ∧
         localStore.MetricExists st (localExternals.MetricKey
          { Kind := MetricKind.EnvironmentInformation,
            Labels := localExternals.DefaultLabelsValues fetched, Value := Float64.zero })
          = (false, none))) ∧
      (commitCountLookupMade t = true →
        ∃ n, behindClient.GetCommitCountBetweenRefs fetched.ProjectName
            (infoLabels.get "current_commit_short_id")
            (infoLabels.get "latest_commit_short_id") = .ok n ∧
          behindCommitsCountEmitted t = [Float64.ofInt n]) ∧
      (commitCountLookupMade t = false → behindCommitsCountEmitted t = [Float64.finite 0]) ∧
      (infoLabels.get "latest_commit_short_id" = infoLabels.get "current_commit_short_id" →
        behindCommitsCountEmitted t = [Float64.finite 0]) :=
  ⟨rfl, pullEnvironmentMetrics_commit_count_lookup localExternals (localExporter behindClient)
    productionEnvironment (localWorld LocalStore.empty) firstPull.2 rfl⟩

/-! ### C11 : behind duration -/

/-- Lines 106-108 of environments.go by cases: the behind duration is 0 when the commit
date is not after the creation time of the deployment; otherwise it is `Seconds` of
their difference when that difference fits a `Duration`, and `Seconds` of the largest
`Duration` when it does not. -/
theorem behindDurationSeconds_cases (commitDate : Time) (env : Environment) :
    (commitDate.unixNano ≤ env.LatestDeployment.CreatedAt.unixNano →
      behindDurationSeconds commitDate env = Float64.finite 0) ∧
    (env.LatestDeployment.CreatedAt.unixNano < commitDate.unixNano →
      commitDate.unixNano - env.LatestDeployment.CreatedAt.unixNano ≤ maxDuration →
      behindDurationSeconds commitDate env
        = Duration.Seconds (commitDate.unixNano - env.LatestDeployment.CreatedAt.unixNano)) ∧
    (maxDuration < commitDate.unixNano - env.LatestDeployment.CreatedAt.unixNano →
      behindDurationSeconds commitDate env
        = Float64.finite (4835703278458517 / 524288)) := by
  have hmax : maxDuration = 9223372036854775807 := by norm_num [maxDuration]
  have hmin : minDuration = -9223372036854775808 := by norm_num [minDuration]
  have hsubdef : ∀ t u : Time, Time.Sub t u =
      (if t.unixNano - u.unixNano < minDuration then minDuration
       else if maxDuration < t.unixNano - u.unixNano then maxDuration
       else t.unixNano - u.unixNano) := fun _ _ => rfl
  refine ⟨?_, ?_, ?_⟩
  · intro hle
    have hsub : ∃ d : Int, commitDate.Sub env.LatestDeployment.CreatedAt = d ∧ d ≤ 0 := by
      rw [hsubdef]
      by_cases h1 : commitDate.unixNano - env.LatestDeployment.CreatedAt.unixNano < minDuration
      · exact ⟨minDuration, by rw [if_pos h1], by omega⟩
      · have h2 : ¬ maxDuration
            < commitDate.unixNano - env.LatestDeployment.CreatedAt.unixNano := by omega
        exact ⟨_, by rw [if_neg h1, if_neg h2], by omega⟩
    obtain ⟨d, hd, hd0⟩ := hsub
    unfold behindDurationSeconds
    rw [hd, Duration.Seconds_nonpos d hd0]
    rfl
  · intro hlt hfit
    have h1 : ¬ commitDate.unixNano - env.LatestDeployment.CreatedAt.unixNano
        < minDuration := by omega
    have h2 : ¬ maxDuration
        < commitDate.unixNano - env.LatestDeployment.CreatedAt.unixNano := by omega
    unfold behindDurationSeconds
    rw [hsubdef, if_neg h1, if_neg h2, Duration.Seconds_pos _ (by omega) (by omega)]
    rfl
  · intro hbig
    have h1 : ¬ commitDate.unixNano - env.LatestDeployment.CreatedAt.unixNano
        < minDuration := by omega
    unfold behindDurationSeconds
    rw [hsubdef, if_neg h1, if_pos hbig, Duration.Seconds_pos _ (by omega) (by omega),
      Duration.Seconds_max]
    rfl

/-- The calls of the latest-commit step set no behind-duration metric. -/
theorem latestCommit_sets_no_duration (X : Externals) (client : Client) (env : Environment) :
    behindDurationEmitted (latestCommit X client env).1 = [] := by
  unfold latestCommit
  split_ifs <;> simp [behindDurationEmitted]

/-- The calls of the commit-count step set no behind-duration metric. -/
theorem behindCommitCount_sets_no_duration {σ : Type} (X : Externals) (E : Exporter σ)
    (env : Environment) (infoLabels : Labels) (st : σ) :
    behindDurationEmitted (behindCommitCount X E env infoLabels st).1 = [] := by
  unfold behindCommitCount
  by_cases hid : infoLabels.get "latest_commit_short_id"
      = infoLabels.get "current_commit_short_id"
  · simp [hid, behindDurationEmitted]
  · simp only [ne_eq, hid, not_false_eq_true, if_true]
    rcases hm : E.store.MetricExists st (X.MetricKey
        { Kind := MetricKind.EnvironmentInformation,
          Labels := X.DefaultLabelsValues env, Value := Float64.zero }) with ⟨b, err⟩
    cases err with
    | some err => simp [behindDurationEmitted]
    | none =>
      cases b with
      | true => simp [behindDurationEmitted]
      | false => simp [behindDurationEmitted]

/-- A successful pull sets the behind-duration metric once, to the value of lines
106-108 for the environment fetched and the date of its latest commit. -/
theorem pullEnvironmentMetrics_ok_duration {σ : Type} (X : Externals) (E : Exporter σ)
    (env : Environment) (w w' : World σ)
    (h : pullEnvironmentMetrics X E env w = (none, w')) :
    ∃ fetched st infoLabels commitDate t,
      E.gitlabClient.GetEnvironment env.ProjectName env.ID = .ok fetched ∧
      E.store.SetEnvironment w.store fetched = (st, none) ∧
      (latestCommit X E.gitlabClient fetched).2 = .ok (infoLabels, commitDate) ∧
      w'.trace = w.trace ++ t ∧
      behindDurationEmitted t = [behindDurationSeconds commitDate fetched] := by
  unfold pullEnvironmentMetrics at h
  cases he : E.gitlabClient.GetEnvironment env.ProjectName env.ID with
  | error err => simp [he] at h
  | ok fetched =>
    rcases hs : E.store.SetEnvironment w.store fetched with ⟨st, serr⟩
    cases serr with
    | some err => simp [he, World.record, hs] at h
    | none =>
      rcases hl : latestCommit X E.gitlabClient fetched with ⟨calls, latest⟩
      cases latest with
      | error err => simp [he, World.record, hs, hl] at h
      | ok lc =>
        obtain ⟨infoLabels, commitDate⟩ := lc
        rcases hb : behindCommitCount X E fetched infoLabels st with ⟨calls2, counted⟩
        cases counted with
        | error err => simp [he, World.record, hs, hl, hb] at h
        | ok count =>
          simp only [he, World.record, hs, hl, hb, Prod.mk.injEq, true_and] at h
          have hc1 := latestCommit_sets_no_duration X E.gitlabClient fetched
          rw [hl] at hc1
          have hc2 := behindCommitCount_sets_no_duration X E fetched infoLabels st
          rw [hb] at hc2
          simp only at hc1 hc2
          refine ⟨fetched, st, infoLabels, commitDate,
            [Effect.ClientGetEnvironment env.ProjectName env.ID,
              Effect.SetEnvironment fetched] ++ calls ++ calls2 ++
            [Effect.storeSetMetric
              { Kind := MetricKind.EnvironmentBehindCommitsCount,
                Labels := X.DefaultLabelsValues fetched, Value := count },
             Effect.storeSetMetric
              { Kind := MetricKind.EnvironmentBehindDurationSeconds,
                Labels := X.DefaultLabelsValues fetched,
                Value := behindDurationSeconds commitDate fetched },
             Effect.storeSetMetric
              { Kind := MetricKind.EnvironmentDeploymentDurationSeconds,
                Labels := X.DefaultLabelsValues fetched,
                Value := fetched.LatestDeployment.Duration.Seconds },
             Effect.emitStatusMetric MetricKind.EnvironmentDeploymentStatus
              (X.DefaultLabelsValues fetched) E.statusesList
              fetched.LatestDeployment.Status true,
             Effect.storeSetMetric
              { Kind := MetricKind.EnvironmentDeploymentTimestamp,
                Labels := X.DefaultLabelsValues fetched,
                Value := Float64.ofInt fetched.LatestDeployment.CreatedAt.Unix },
             Effect.storeSetMetric
              { Kind := MetricKind.EnvironmentInformation, Labels := infoLabels,
                Value := Float64.finite 1 }],
            rfl, hs, by rw [hl], ?_, ?_⟩
          · rw [← h]
            simp [emitEnvironmentMetrics, Exporter.setMetric]
          · unfold behindDurationEmitted at hc1 hc2 ⊢
            simp [List.filterMap_append, hc1, hc2]

/-- C11, as stated, fails: the pull of `staging` succeeds, the latest commit of its
branch is dated 2020-10-01 13:05:10 UTC, later than the creation time of the deployment
(January 1, year 1), and the behind duration emitted is not the difference of the two
in seconds (63737154310, a number a double holds exactly) but the largest `Duration` in
seconds, which `Duration.Seconds` returns as the double 4835703278458517 / 2^19. -/
theorem pullEnvironmentMetrics_saturated_behind_duration :
    stagingPull.1 = none ∧
    (latestCommit localExternals stagingClient stagingEnvironment).2
      = .ok ((localExternals.InformationLabelsValues stagingEnvironment).set
          "latest_commit_short_id" "bbbbbbbb", ⟨1601557510 * 1000000000⟩) ∧
    stagingEnvironment.LatestDeployment.CreatedAt.unixNano < 1601557510 * 1000000000 ∧
    behindDurationEmitted stagingPull.2.trace
      = [Float64.finite (4835703278458517 / 524288)] ∧
    behindDurationEmitted stagingPull.2.trace
      ≠ [Float64.finite
          (((1601557510 * 1000000000
              - stagingEnvironment.LatestDeployment.CreatedAt.unixNano : Int) : ℚ)
            / 1000000000)] := by
  have hpull : behindDurationEmitted stagingPull.2.trace
      = [behindDurationSeconds ⟨1601557510 * 1000000000⟩ stagingEnvironment] := rfl
  have hsat : behindDurationSeconds ⟨1601557510 * 1000000000⟩ stagingEnvironment
      = Float64.finite (4835703278458517 / 524288) :=
    (behindDurationSeconds_cases ⟨1601557510 * 1000000000⟩ stagingEnvironment).2.2 (by decide)
  have hval : behindDurationEmitted stagingPull.2.trace
      = [Float64.finite (4835703278458517 / 524288)] := by
    rw [hpull, hsat]
  refine ⟨rfl, rfl, by decide, hval, ?_⟩
  rw [hval]
  intro hc
  simp only [List.cons.injEq, Float64.finite.injEq, and_true] at hc
  norm_num [stagingEnvironment, Time.zeroTime] at hc

/-- C11, amended: in a successful pull (`fetched` being the environment fetched,
`commitDate` the date of its latest commit, Go's zero time when the deployment is
neither from a branch nor from a tag, and `t` the calls made), the behind duration is
emitted once and is never negative; it is 0 whenever the commit date is earlier than
or equal to the creation time of the latest deployment.  Otherwise, when the commit
date minus the creation time fits a `Duration` (at most `2^63 - 1` nanoseconds), it is
that difference in seconds as `Duration.Seconds` returns it: a double within one part
in `2^51` of the exact number of seconds, and that number itself when the difference is
a whole number of seconds.  When the difference does not fit, it is the largest
`Duration` in seconds, the double 4835703278458517 / 2^19. -/
theorem pullEnvironmentMetrics_behind_duration {σ : Type} (X : Externals) (E : Exporter σ)
    (env : Environment) (w w' : World σ)
    (h : pullEnvironmentMetrics X E env w = (none, w')) :
    ∃ fetched st infoLabels commitDate t v,
      E.gitlabClient.GetEnvironment env.ProjectName env.ID = .ok fetched ∧
      E.store.SetEnvironment w.store fetched = (st, none) ∧
      (latestCommit X E.gitlabClient fetched).2 = .ok (infoLabels, commitDate) ∧
      w'.trace = w.trace ++ t ∧
      behindDurationEmitted t = [v] ∧
      (∃ q : ℚ, 0 ≤ q ∧ v = Float64.finite q) ∧
      (commitDate.unixNano ≤ fetched.LatestDeployment.CreatedAt.unixNano →
        v = Float64.finite 0) ∧
      (fetched.LatestDeployment.CreatedAt.unixNano < commitDate.unixNano →
        commitDate.unixNano - fetched.LatestDeployment.CreatedAt.unixNano ≤ maxDuration →
        v = Duration.Seconds
          (commitDate.unixNano - fetched.LatestDeployment.CreatedAt.unixNano) ∧
        (∃ q : ℚ, v = Float64.finite q ∧
          |q - ((commitDate.unixNano - fetched.LatestDeployment.CreatedAt.unixNano : Int) : ℚ)
              / 1000000000|
            ≤ ((commitDate.unixNano - fetched.LatestDeployment.CreatedAt.unixNano : Int) : ℚ)
              / 1000000000 / 2 ^ 51) ∧
        (∀ k : Int,
          commitDate.unixNano - fetched.LatestDeployment.CreatedAt.unixNano = k * 1000000000 →
          v = Float64.finite (k : ℚ))) ∧
      (maxDuration < commitDate.unixNano - fetched.LatestDeployment.CreatedAt.unixNano →
        v = Float64.finite (4835703278458517 / 524288)) := by
  obtain ⟨fetched, st, infoLabels, commitDate, t, he, hs, hl, ht, hv⟩ :=
    pullEnvironmentMetrics_ok_duration X E env w w' h
  obtain ⟨hzero, hfit, hsat⟩ := behindDurationSeconds_cases commitDate fetched
  have hmax : maxDuration = 9223372036854775807 := by norm_num [maxDuration]
  have hspec : fetched.LatestDeployment.CreatedAt.unixNano < commitDate.unixNano →
      commitDate.unixNano - fetched.LatestDeployment.CreatedAt.unixNano ≤ maxDuration →
      ∃ q : ℚ, behindDurationSeconds commitDate fetched = Float64.finite q ∧
        |q - ((commitDate.unixNano - fetched.LatestDeployment.CreatedAt.unixNano : Int) : ℚ)
            / 1000000000|
          ≤ ((commitDate.unixNano - fetched.LatestDeployment.CreatedAt.unixNano : Int) : ℚ)
            / 1000000000 / 2 ^ 51 := by
    intro hlt hle
    obtain ⟨q, hq, hb⟩ := Duration.Seconds_spec
      (commitDate.unixNano - fetched.LatestDeployment.CreatedAt.unixNano) (by omega) (by omega)
    exact ⟨q, by rw [hfit hlt hle, hq], hb⟩
  refine ⟨fetched, st, infoLabels, commitDate, t, behindDurationSeconds commitDate fetched,
    he, hs, hl, ht, hv, ?_, hzero, ?_, hsat⟩
  · by_cases hle : commitDate.unixNano ≤ fetched.LatestDeployment.CreatedAt.unixNano
    · exact ⟨0, le_refl 0, hzero hle⟩
    · by_cases hf : commitDate.unixNano - fetched.LatestDeployment.CreatedAt.unixNano
          ≤ maxDuration
      · obtain ⟨q, hq, hb⟩ := hspec (by omega) hf
        refine ⟨q, ?_, hq⟩
        have hT : (0 : ℚ)
            ≤ ((commitDate.unixNano - fetched.LatestDeployment.CreatedAt.unixNano : Int) : ℚ)
              / 1000000000 := by
          have : (0 : ℚ)
              ≤ ((commitDate.unixNano - fetched.LatestDeployment.CreatedAt.unixNano : Int) : ℚ) := by
            exact_mod_cast (by omega :
              (0 : Int) ≤ commitDate.unixNano - fetched.LatestDeployment.CreatedAt.unixNano)
          positivity
        have hb' := (abs_le.mp hb).1
        have e3 :
            ((commitDate.unixNano - fetched.LatestDeployment.CreatedAt.unixNano : Int) : ℚ)
              / 1000000000 / 2 ^ 51
            = ((commitDate.unixNano - fetched.LatestDeployment.CreatedAt.unixNano : Int) : ℚ)
              / 1000000000 * (1 / 2 ^ 51) := by ring
        rw [e3] at hb'
        nlinarith [hb']
      · exact ⟨_, by norm_num, hsat (by omega)⟩
  · intro hlt hle
    refine ⟨hfit hlt hle, hspec hlt hle, ?_⟩
    intro k hk
    rw [hfit hlt hle, hk]
    exact Duration.Seconds_whole k (by omega) (by omega)

/-- Witness for C11: the first pull of `production` against `behindClient` succeeds;
the deployment was created at 13:04:10 and the latest commit is dated 13:05:10, and
the behind duration emitted is 60 seconds. -/
theorem pullEnvironmentMetrics_behind_duration_witness :
    pullEnvironmentMetrics localExternals (localExporter behindClient) productionEnvironment
        (localWorld LocalStore.empty) = (none, firstPull.2) ∧
    behindDurationEmitted firstPull.2.trace = [Float64.finite 60] := by
  refine ⟨rfl, ?_⟩
  obtain ⟨fetched, st, infoLabels, commitDate, t, v, he, _, hl, ht, hv, _, _, hfit, _⟩ :=
    pullEnvironmentMetrics_behind_duration localExternals (localExporter behindClient)
      productionEnvironment (localWorld LocalStore.empty) firstPull.2 rfl
  have hf : fetched = productionEnvironment := by
    have h1 : (localExporter behindClient).gitlabClient.GetEnvironment
        productionEnvironment.ProjectName productionEnvironment.ID
        = .ok productionEnvironment := rfl
    rw [h1] at he
    injection he with he
    exact he.symm
  subst hf
  have hd : commitDate = ⟨1601557510 * 1000000000⟩ := by
    have h2 : (latestCommit localExternals (localExporter behindClient).gitlabClient
        productionEnvironment).2
        = .ok ((localExternals.InformationLabelsValues productionEnvironment).set
            "latest_commit_short_id" "bbbbbbbb", ⟨1601557510 * 1000000000⟩) := rfl
    rw [h2] at hl
    injection hl with hl
    exact (congrArg Prod.snd hl).symm
  subst hd
  have hv60 : v = Float64.finite 60 := by
    rw [(hfit (by decide) (by decide)).2.2 60 (by decide)]
    norm_num
  have htr : firstPull.2.trace = t := by
    rw [ht]
    rfl
  rw [htr, hv, hv60]

/-! ### C9 : repeated pulls -/

/-- Overwriting the entries of one key leaves the lookup of another key alone. -/
theorem lookup_map_update_ne {α : Type} (m : List (Key × α)) (k K : Key) (v : α) (h : k ≠ K) :
    (m.map (fun kv => if kv.1 == k then (k, v) else kv)).lookup K = m.lookup K := by
  have hK : (K == k) = false := by simpa using (Ne.symm h)
  induction m with
  | nil => rfl
  | cons kv rest ih =>
    obtain ⟨a, b⟩ := kv
    by_cases hak : a = k
    · subst hak
      rw [List.map_cons]
      have e1 : (if ((a, b) : Key × α).1 == a then (a, v) else (a, b)) = (a, v) := by simp
      rw [e1, List.lookup_cons, List.lookup_cons, hK, ih]
    · have hak' : (a == k) = false := by simpa using hak
      rw [List.map_cons]
      have e1 : (if ((a, b) : Key × α).1 == k then (k, v) else (a, b)) = (a, b) := by simp [hak]
      rw [e1, List.lookup_cons, List.lookup_cons, ih]

/-- Adding an entry of one key leaves the lookup of another key alone. -/
theorem lookup_append_ne {α : Type} (m : List (Key × α)) (k K : Key) (v : α) (h : k ≠ K) :
    (m ++ [(k, v)]).lookup K = m.lookup K := by
  have hK : (K == k) = false := by simpa using (Ne.symm h)
  induction m with
  | nil => simp [List.lookup, hK]
  | cons kv rest ih =>
    obtain ⟨a, b⟩ := kv
    rw [List.cons_append, List.lookup_cons, List.lookup_cons, ih]

/-- A write under one key leaves the lookup of another key alone. -/
theorem lookup_assocSet_ne {α : Type} (m : List (Key × α)) (k K : Key) (v : α) (h : k ≠ K) :
    (assocSet m k v).lookup K = m.lookup K := by
  unfold assocSet
  split_ifs
  · exact lookup_map_update_ne m k K v h
  · exact lookup_append_ne m k K v h

/-- Writes leave the lookup of a key that none of them writes alone. -/
theorem lookup_applyWrites_of_not_mem {α : Type} (ws : List (Key × α)) (m : List (Key × α))
    (K : Key) (h : ∀ kv ∈ ws, kv.1 ≠ K) :
    (applyWrites ws m).lookup K = m.lookup K := by
  induction ws generalizing m with
  | nil => rfl
  | cons w rest ih =>
    simp only [applyWrites, List.foldl_cons]
    have h1 := ih (assocSet m w.1 w.2) (fun kv hkv => h kv (List.mem_cons_of_mem _ hkv))
    simp only [applyWrites] at h1
    rw [h1, lookup_assocSet_ne _ _ _ _ (h w (List.mem_cons_self _ _))]
/-- A write under a key that is there overwrites in place. -/
theorem assocSet_of_mem {α : Type} (m : List (Key × α)) (k : Key) (v : α)
    (h : k ∈ m.map Prod.fst) :
    assocSet m k v = m.map (fun kv => if kv.1 == k then (k, v) else kv) := by
  unfold assocSet
  have : m.any (fun kv => kv.1 == k) = true := by
    rw [List.any_eq_true]
    obtain ⟨kv, hkv, hk⟩ := List.mem_map.mp h
    exact ⟨kv, hkv, by simp [hk]⟩
  rw [if_pos this]

/-- Overwriting in place keeps the keys. -/
theorem keys_map_update {α : Type} (m : List (Key × α)) (k : Key) (v : α) :
    (m.map (fun kv => if kv.1 == k then (k, v) else kv)).map Prod.fst = m.map Prod.fst := by
  rw [List.map_map]
  apply List.map_congr_left
  intro kv _
  by_cases h : kv.1 = k
  · simp [h]
  · simp [h]

/-- After a write its key is there, and so is every key that was. -/
theorem keys_assocSet {α : Type} (m : List (Key × α)) (k K : Key) (v : α)
    (h : K = k ∨ K ∈ m.map Prod.fst) : K ∈ (assocSet m k v).map Prod.fst := by
  unfold assocSet
  split_ifs with hany
  · rw [keys_map_update]
    rcases h with h | h
    · rw [List.any_eq_true] at hany
      obtain ⟨kv, hkv, hk⟩ := hany
      rw [h]
      exact List.mem_map.mpr ⟨kv, hkv, by simpa using hk⟩
    · exact h
  · rw [List.map_append, List.mem_append]
    rcases h with h | h
    · right; simp [h]
    · left; exact h

/-- After a write, an entry under the written key is the written one, and an entry under another key was there before. -/
theorem mem_assocSet {α : Type} (m : List (Key × α)) (k : Key) (v : α) (kv : Key × α)
    (h : kv ∈ assocSet m k v) : (kv.1 = k → kv = (k, v)) ∧ (kv.1 ≠ k → kv ∈ m) := by
  unfold assocSet at h
  split_ifs at h with hany
  · obtain ⟨x, hx, hxe⟩ := List.mem_map.mp h
    by_cases hxk : x.1 = k
    · simp only [hxk, beq_self_eq_true, if_true] at hxe
      subst hxe
      exact ⟨fun _ => rfl, fun hne => absurd rfl hne⟩
    · have : (x.1 == k) = false := by simpa using hxk
      simp only [this, Bool.false_eq_true, if_false] at hxe
      subst hxe
      exact ⟨fun he => absurd he hxk, fun _ => hx⟩
  · rw [List.mem_append] at h
    rcases h with h | h
    · refine ⟨fun he => ?_, fun _ => h⟩
      exfalso
      apply hany
      rw [List.any_eq_true]
      exact ⟨kv, h, by simp [he]⟩
    · simp only [List.mem_singleton] at h
      subst h
      exact ⟨fun _ => rfl, fun hne => absurd rfl hne⟩

/-- Writes under keys that are all there overwrite in place. -/
theorem applyWrites_eq_map {α : Type} (ws : List (Key × α)) (m : List (Key × α))
    (h : ∀ w ∈ ws, w.1 ∈ m.map Prod.fst) :
    applyWrites ws m = m.map (updateAll ws) := by
  induction ws generalizing m with
  | nil =>
    have : updateAll ([] : List (Key × α)) = id := rfl
    rw [this, List.map_id]
    rfl
  | cons w rest ih =>
    have hw := h w (List.mem_cons_self _ _)
    have e1 : applyWrites (w :: rest) m = applyWrites rest (assocSet m w.1 w.2) := rfl
    rw [e1, assocSet_of_mem m w.1 w.2 hw]
    rw [ih _ (by
      intro x hx
      rw [keys_map_update]
      exact h x (List.mem_cons_of_mem _ hx))]
    rw [List.map_map]
    rfl

/-- After a sequence of writes every written key is there, and so is every key that was. -/
theorem keys_applyWrites {α : Type} (ws : List (Key × α)) (m : List (Key × α)) (K : Key)
    (h : K ∈ ws.map Prod.fst ∨ K ∈ m.map Prod.fst) : K ∈ (applyWrites ws m).map Prod.fst := by
  induction ws generalizing m with
  | nil =>
    rcases h with h | h
    · simp at h
    · exact h
  | cons w rest ih =>
    have e1 : applyWrites (w :: rest) m = applyWrites rest (assocSet m w.1 w.2) := rfl
    rw [e1]
    apply ih
    rcases h with h | h
    · rw [List.map_cons, List.mem_cons] at h
      rcases h with h | h
      · right; exact keys_assocSet m w.1 K w.2 (Or.inl h)
      · left; exact h
    · right; exact keys_assocSet m w.1 K w.2 (Or.inr h)

/-- After a sequence of writes, an entry under a key none of them writes was there before. -/
theorem mem_applyWrites_unwritten {α : Type} (ws : List (Key × α)) (m : List (Key × α))
    (kv : Key × α) (h : kv ∈ applyWrites ws m) (hn : ∀ w ∈ ws, w.1 ≠ kv.1) : kv ∈ m := by
  induction ws generalizing m with
  | nil => exact h
  | cons w rest ih =>
    have e1 : applyWrites (w :: rest) m = applyWrites rest (assocSet m w.1 w.2) := rfl
    rw [e1] at h
    have h1 := ih _ h (fun x hx => hn x (List.mem_cons_of_mem _ hx))
    exact (mem_assocSet m w.1 w.2 kv h1).2 (Ne.symm (hn w (List.mem_cons_self _ _)))

/-- Unfolding of `updateAll` on a first write. -/
theorem updateAll_cons {α : Type} (w : Key × α) (rest : List (Key × α)) (kv : Key × α) :
    updateAll (w :: rest) kv = updateAll rest (if kv.1 == w.1 then (w.1, w.2) else kv) := rfl

/-- Writes under other keys leave an entry alone. -/
theorem updateAll_unwritten {α : Type} (ws : List (Key × α)) (kv : Key × α)
    (hn : ∀ w ∈ ws, w.1 ≠ kv.1) : updateAll ws kv = kv := by
  induction ws with
  | nil => rfl
  | cons w rest ih =>
    rw [updateAll_cons]
    have : (kv.1 == w.1) = false := by
      simpa using Ne.symm (hn w (List.mem_cons_self _ _))
    rw [this]
    exact ih (fun x hx => hn x (List.mem_cons_of_mem _ hx))

/-- An entry whose key is written ends as the writes say, whatever it held. -/
theorem updateAll_written {α : Type} (ws : List (Key × α)) (k : Key) (a b : α)
    (h : k ∈ ws.map Prod.fst) : updateAll ws (k, a) = updateAll ws (k, b) := by
  induction ws generalizing a b with
  | nil => simp at h
  | cons w rest ih =>
    rw [updateAll_cons, updateAll_cons]
    by_cases hk : k = w.1
    · simp [hk]
    · have : (k == w.1) = false := by simpa using hk
      simp only [this, Bool.false_eq_true, if_false]
      rw [List.map_cons, List.mem_cons] at h
      rcases h with h | h
      · exact absurd h hk
      · exact ih a b h

/-- Every entry left by a sequence of writes is one the same writes leave alone. -/
theorem updateAll_fixed {α : Type} (ws : List (Key × α)) (m : List (Key × α))
    (kv : Key × α) (h : kv ∈ applyWrites ws m) : updateAll ws kv = kv := by
  induction ws generalizing m with
  | nil => rfl
  | cons w rest ih =>
    have e1 : applyWrites (w :: rest) m = applyWrites rest (assocSet m w.1 w.2) := rfl
    rw [e1] at h
    have hfix := ih _ h
    rw [updateAll_cons]
    by_cases hk : kv.1 = w.1
    · simp only [hk, beq_self_eq_true, if_true]
      by_cases hw : w.1 ∈ rest.map Prod.fst
      · have hkv : kv = (w.1, kv.2) := by rw [← hk]
        rw [updateAll_written rest w.1 w.2 kv.2 hw, ← hkv]
        exact hfix
      · have hn : ∀ x ∈ rest, x.1 ≠ kv.1 := by
          intro x hx hxe
          apply hw
          rw [← hk, ← hxe]
          exact List.mem_map_of_mem _ hx
        have hmem := mem_applyWrites_unwritten rest _ kv h hn
        have hkv := (mem_assocSet m w.1 w.2 kv hmem).1 hk
        rw [updateAll_unwritten rest _ (by
          intro x hx hxe
          apply hw
          simp only at hxe
          rw [← hxe]
          exact List.mem_map_of_mem _ hx)]
        exact hkv.symm
    · have : (kv.1 == w.1) = false := by simpa using hk
      simp only [this, Bool.false_eq_true, if_false]
      exact hfix

/-- Applying a sequence of writes a second time changes nothing. -/
theorem applyWrites_idempotent {α : Type} (ws : List (Key × α)) (m : List (Key × α)) :
    applyWrites ws (applyWrites ws m) = applyWrites ws m := by
  rw [applyWrites_eq_map ws (applyWrites ws m)
    (fun w hw => keys_applyWrites ws m w.1 (Or.inl (List.mem_map_of_mem _ hw)))]
  conv_rhs => rw [← List.map_id (applyWrites ws m)]
  apply List.map_congr_left
  intro kv hkv
  exact updateAll_fixed ws m kv hkv

/-- Repeating a write changes nothing. -/
theorem assocSet_idempotent {α : Type} (m : List (Key × α)) (k : Key) (v : α) :
    assocSet (assocSet m k v) k v = assocSet m k v :=
  applyWrites_idempotent [(k, v)] m

/-- A label set rendered after another is the two renderings in a row. -/
theorem renderLabels_append (a b : Labels) :
    renderLabels (a ++ b) = renderLabels a ++ renderLabels b := by
  induction a with
  | nil => simp [renderLabels]
  | cons x rest ih =>
    obtain ⟨k, v⟩ := x
    simp [renderLabels, ih, String.append_assoc]

/-- The metrics of one pull reach the in-memory Store as a sequence of writes. -/
theorem emitEnvironmentMetrics_local_store (client : Client) (env : Environment)
    (infoLabels : Labels) (c d : Float64) (w : World LocalStore) :
    (emitEnvironmentMetrics localExternals (localExporter client) env infoLabels c d w).store
      = { w.store with
          metrics := applyWrites (localMetricWrites env infoLabels c d) w.store.metrics } := by
  simp only [emitEnvironmentMetrics, Exporter.setMetric, localExporter, localSetMetric,
    localEmitStatusMetric, List.foldl, applyWrites, localMetricWrites, List.map]

/-- The calls that set the metrics of one pull do not depend on the state of the Store. -/
theorem emitEnvironmentMetrics_trace {σ : Type} (X : Externals) (E : Exporter σ)
    (env : Environment) (infoLabels : Labels) (c d : Float64) (w : World σ) (s : σ) :
    (emitEnvironmentMetrics X E env infoLabels c d w).trace
      = w.trace ++ (emitEnvironmentMetrics X E env infoLabels c d ⟨s, []⟩).trace := by
  simp [emitEnvironmentMetrics, Exporter.setMetric]

/-- The key that the commit-count step looks up: the information kind with the default
labels of the environment. -/
theorem informationKey_eq (env : Environment) :
    localExternals.MetricKey
      { Kind := MetricKind.EnvironmentInformation,
        Labels := localExternals.DefaultLabelsValues env, Value := Float64.zero }
      = "environment_information" ++ renderLabels (localExternals.DefaultLabelsValues env) :=
  rfl

/-- A key of another kind than information is not a key of the information kind. -/
theorem metricKey_kind_ne (kind : MetricKind) (h : kind ≠ MetricKind.EnvironmentInformation)
    (l l0 : Labels) :
    metricKindName kind ++ renderLabels l ≠ "environment_information" ++ renderLabels l0 := by
  intro heq
  have hd := congrArg String.data heq
  rw [String.data_append, String.data_append] at hd
  have ht := congrArg (List.take 13) hd
  cases kind <;> first | exact h rfl | (simp [metricKindName] at ht)

/-- The information labels that the latest-commit step answers are the default labels
of the environment followed by four more. -/
theorem latestCommit_local_labels (client : Client) (env : Environment)
    (calls : List Effect) (infoLabels : Labels) (commitDate : Time)
    (h : latestCommit localExternals client env = (calls, .ok (infoLabels, commitDate))) :
    ∃ id, infoLabels = localExternals.DefaultLabelsValues env ++
      [("kind", env.LatestDeployment.RefKind), ("ref", env.LatestDeployment.RefName),
       ("current_commit_short_id", env.LatestDeployment.CommitShortID),
       ("latest_commit_short_id", id)] := by
  unfold latestCommit at h
  have hset : ∀ id, (localExternals.InformationLabelsValues env).set
      "latest_commit_short_id" id
      = localExternals.DefaultLabelsValues env ++
        [("kind", env.LatestDeployment.RefKind), ("ref", env.LatestDeployment.RefName),
         ("current_commit_short_id", env.LatestDeployment.CommitShortID),
         ("latest_commit_short_id", id)] := by
    intro id
    simp [Labels.set, localExternals]
  split_ifs at h with hb ht
  · cases hg : client.GetBranchLatestCommit env.ProjectName env.LatestDeployment.RefName with
    | error err => simp [hg] at h
    | ok r =>
      obtain ⟨id, cd⟩ := r
      simp only [hg, Prod.mk.injEq, Except.ok.injEq] at h
      exact ⟨id, by rw [← h.2.1, hset]⟩
  · cases hg : client.GetProjectMostRecentTagCommit env.ProjectName env.TagsRegexp with
    | error err => simp [hg] at h
    | ok r =>
      obtain ⟨id, cd⟩ := r
      simp only [hg, Prod.mk.injEq, Except.ok.injEq] at h
      exact ⟨id, by rw [← h.2.1, hset]⟩
  · simp only [Prod.mk.injEq, Except.ok.injEq] at h
    exact ⟨"", by rw [← h.2.1]; rfl⟩

/-- The key of the information metric that a pull sets carries four labels more than
the key that the commit-count step looks up. -/
theorem informationKey_ne (l0 : Labels) (a b c d : String) :
    "environment_information" ++ renderLabels (l0 ++
      [("kind", a), ("ref", b), ("current_commit_short_id", c),
       ("latest_commit_short_id", d)])
    ≠ "environment_information" ++ renderLabels l0 := by
  intro heq
  have hl := congrArg String.length heq
  rw [renderLabels_append] at hl
  simp only [String.length_append, renderLabels] at hl
  have h1 : ";".length = 1 := rfl
  omega

/-- None of the metrics that a pull sets is under the key that the commit-count step
looks up. -/
theorem localMetricWrites_not_informationKey (env : Environment) (a b c d : String)
    (x y : Float64) :
    ∀ kv ∈ localMetricWrites env (localExternals.DefaultLabelsValues env ++
        [("kind", a), ("ref", b), ("current_commit_short_id", c),
         ("latest_commit_short_id", d)]) x y,
      kv.1 ≠ localExternals.MetricKey
        { Kind := MetricKind.EnvironmentInformation,
          Labels := localExternals.DefaultLabelsValues env, Value := Float64.zero } := by
  intro kv hkv
  unfold localMetricWrites at hkv
  simp only [List.map_cons, List.map_nil, List.mem_cons, List.mem_singleton,
    List.not_mem_nil, or_false] at hkv
  rcases hkv with h | h | h | h | h | h | h | h <;> subst h
  · exact metricKey_kind_ne _ (fun hk => MetricKind.noConfusion hk) _ _
  · exact metricKey_kind_ne _ (fun hk => MetricKind.noConfusion hk) _ _
  · exact metricKey_kind_ne _ (fun hk => MetricKind.noConfusion hk) _ _
  · exact metricKey_kind_ne _ (fun hk => MetricKind.noConfusion hk) _ _
  · exact metricKey_kind_ne _ (fun hk => MetricKind.noConfusion hk) _ _
  · exact metricKey_kind_ne _ (fun hk => MetricKind.noConfusion hk) _ _
  · exact metricKey_kind_ne _ (fun hk => MetricKind.noConfusion hk) _ _
  · exact informationKey_ne _ a b c d

/-- The commit-count step reads the Store only through the existence of the information
metric under the key of the default labels. -/
theorem behindCommitCount_local_congr (client : Client) (env : Environment)
    (infoLabels : Labels) (st st2 : LocalStore)
    (h : st2.metrics.lookup (localExternals.MetricKey
          { Kind := MetricKind.EnvironmentInformation,
            Labels := localExternals.DefaultLabelsValues env, Value := Float64.zero })
        = st.metrics.lookup (localExternals.MetricKey
          { Kind := MetricKind.EnvironmentInformation,
            Labels := localExternals.DefaultLabelsValues env, Value := Float64.zero })) :
    behindCommitCount localExternals (localExporter client) env infoLabels st2
      = behindCommitCount localExternals (localExporter client) env infoLabels st := by
  unfold behindCommitCount
  simp only [localExporter, localStore]
  rw [h]

/-- A pull on the in-memory exporter whose three steps succeed: the world it leaves. -/
theorem pullEnvironmentMetrics_local_run (client : Client) (env fetched : Environment)
    (w : World LocalStore) (calls calls2 : List Effect) (infoLabels : Labels)
    (commitDate : Time) (count : Float64)
    (he : client.GetEnvironment env.ProjectName env.ID = .ok fetched)
    (hl : latestCommit localExternals client fetched = (calls, .ok (infoLabels, commitDate)))
    (hb : behindCommitCount localExternals (localExporter client) fetched infoLabels
        (localStore.SetEnvironment w.store fetched).1
      = (calls2, .ok count)) :
    pullEnvironmentMetrics localExternals (localExporter client) env w
      = (none, emitEnvironmentMetrics localExternals (localExporter client) fetched infoLabels
          count (behindDurationSeconds commitDate fetched)
          { store := (localStore.SetEnvironment w.store fetched).1,
            trace := w.trace ++ [Effect.ClientGetEnvironment env.ProjectName env.ID]
              ++ [Effect.SetEnvironment fetched] ++ calls ++ calls2 }) := by
  have hE : (localExporter client).gitlabClient = client := rfl
  have hS : ∀ s e, (localExporter client).store.SetEnvironment s e
      = ((localStore.SetEnvironment s e).1, none) :=
    fun _ _ => rfl
  unfold pullEnvironmentMetrics
  simp only [hE, he, World.record, hS, hl, hb]

/-- A successful pull on the in-memory exporter: its three steps succeeded, and the
world it leaves is the one they give. -/
theorem pullEnvironmentMetrics_local_ok (client : Client) (env : Environment)
    (w w1 : World LocalStore)
    (h : pullEnvironmentMetrics localExternals (localExporter client) env w = (none, w1)) :
    ∃ fetched calls infoLabels commitDate calls2 count,
      client.GetEnvironment env.ProjectName env.ID = .ok fetched ∧
      latestCommit localExternals client fetched = (calls, .ok (infoLabels, commitDate)) ∧
      behindCommitCount localExternals (localExporter client) fetched infoLabels
          (localStore.SetEnvironment w.store fetched).1
        = (calls2, .ok count) ∧
      w1 = emitEnvironmentMetrics localExternals (localExporter client) fetched infoLabels
          count (behindDurationSeconds commitDate fetched)
          { store := (localStore.SetEnvironment w.store fetched).1,
            trace := w.trace ++ [Effect.ClientGetEnvironment env.ProjectName env.ID]
              ++ [Effect.SetEnvironment fetched] ++ calls ++ calls2 } := by
  have hE : (localExporter client).gitlabClient = client := rfl
  have hS : ∀ s e, (localExporter client).store.SetEnvironment s e
      = ((localStore.SetEnvironment s e).1, none) :=
    fun _ _ => rfl
  unfold pullEnvironmentMetrics at h
  rw [hE] at h
  cases he : client.GetEnvironment env.ProjectName env.ID with
  | error err => simp [he] at h
  | ok fetched =>
    rcases hl : latestCommit localExternals client fetched with ⟨calls, latest⟩
    cases latest with
    | error err => simp [he, World.record, hS, hl] at h
    | ok lc =>
      obtain ⟨infoLabels, commitDate⟩ := lc
      rcases hb : behindCommitCount localExternals (localExporter client) fetched infoLabels
          (localStore.SetEnvironment w.store fetched).1
        with ⟨calls2, counted⟩
      cases counted with
      | error err => simp [he, World.record, hS, hl, hb] at h
      | ok count =>
        simp only [he, World.record, hS, hl, hb, Prod.mk.injEq, true_and] at h
        exact ⟨fetched, calls, infoLabels, commitDate, calls2, count, rfl, hl, hb, h.symm⟩

/-- Storing an environment leaves the metrics of the in-memory Store alone. -/
theorem localStore_SetEnvironment_metrics (s : LocalStore) (e : Environment) :
    (localStore.SetEnvironment s e).1.metrics = s.metrics := rfl

/-- Storing an environment a second time leaves the in-memory Store as it is. -/
theorem localStore_SetEnvironment_twice (s : LocalStore) (e : Environment)
    (ms : List (Key × Metric)) :
    (localStore.SetEnvironment
        { (localStore.SetEnvironment s e).1 with metrics := ms } e).1
      = { (localStore.SetEnvironment s e).1 with metrics := ms } := by
  simp only [localStore]
  rw [assocSet_idempotent]

/-- C9: on the in-memory Store, a pull that succeeds can be repeated: run again on the
world the first run left, against the same upstream data, it succeeds again, makes the
same calls with the same arguments (so each environment metric is set to the same value
as by the first run), and leaves the Store equal to the Store after the first run. -/
theorem pullEnvironmentMetrics_idempotent (client : Client) (env : Environment)
    (w w1 : World LocalStore)
    (h1 : pullEnvironmentMetrics localExternals (localExporter client) env w = (none, w1)) :
    ∃ w2, pullEnvironmentMetrics localExternals (localExporter client) env w1 = (none, w2) ∧
      w2.store = w1.store ∧
      ∃ t, w1.trace = w.trace ++ t ∧ w2.trace = w1.trace ++ t := by
  obtain ⟨fetched, calls, infoLabels, commitDate, calls2, count, he, hl, hb, hw1⟩ :=
    pullEnvironmentMetrics_local_ok client env w w1 h1
  obtain ⟨id, hlabels⟩ := latestCommit_local_labels client fetched calls infoLabels commitDate hl
  obtain ⟨ws, hws⟩ : ∃ ws, ws = localMetricWrites fetched infoLabels count
      (behindDurationSeconds commitDate fetched) := ⟨_, rfl⟩
  obtain ⟨K, hK⟩ : ∃ K, K = localExternals.MetricKey
      { Kind := MetricKind.EnvironmentInformation,
        Labels := localExternals.DefaultLabelsValues fetched, Value := Float64.zero } :=
    ⟨_, rfl⟩
  obtain ⟨st, hstdef⟩ : ∃ st, st = (localStore.SetEnvironment w.store fetched).1 := ⟨_, rfl⟩
  have hkeys : ∀ kv ∈ ws, kv.1 ≠ K := by
    rw [hws, hK, hlabels]
    exact localMetricWrites_not_informationKey fetched fetched.LatestDeployment.RefKind
      fetched.LatestDeployment.RefName fetched.LatestDeployment.CommitShortID id count
      (behindDurationSeconds commitDate fetched)
  have hstore1 : w1.store = { st with metrics := applyWrites ws st.metrics } := by
    rw [hw1, emitEnvironmentMetrics_local_store, ← hws, ← hstdef]
  have hst : (localStore.SetEnvironment w1.store fetched).1 = w1.store := by
    rw [hstore1, hstdef]
    exact localStore_SetEnvironment_twice w.store fetched _
  rw [← hstdef] at hb
  have hb2 : behindCommitCount localExternals (localExporter client) fetched infoLabels
      (localStore.SetEnvironment w1.store fetched).1 = (calls2, .ok count) := by
    rw [hst, ← hb]
    apply behindCommitCount_local_congr
    rw [← hK, hstore1]
    exact lookup_applyWrites_of_not_mem ws st.metrics K hkeys
  have hrun := pullEnvironmentMetrics_local_run client env fetched w1 calls calls2 infoLabels
    commitDate count he hl hb2
  refine ⟨_, hrun, ?_, ?_⟩
  · rw [emitEnvironmentMetrics_local_store, ← hws, hst, hstore1]
    show LocalStore.mk _ _ _ (applyWrites ws (applyWrites ws st.metrics))
      = LocalStore.mk _ _ _ (applyWrites ws st.metrics)
    rw [applyWrites_idempotent]
  · refine ⟨[Effect.ClientGetEnvironment env.ProjectName env.ID]
        ++ [Effect.SetEnvironment fetched] ++ calls ++ calls2
        ++ (emitEnvironmentMetrics localExternals (localExporter client) fetched infoLabels
            count (behindDurationSeconds commitDate fetched) ⟨w.store, []⟩).trace, ?_, ?_⟩
    · rw [hw1, emitEnvironmentMetrics_trace _ _ _ _ _ _ _ w.store]
      simp only [List.append_assoc]
    · rw [emitEnvironmentMetrics_trace _ _ _ _ _ _ _ w.store]
      simp only [List.append_assoc]

/-- Witness for C9: the first pull of `production` against `behindClient`, from an empty
Store, succeeds, so the pull repeated on the world it left succeeds with the same calls
and leaves the Store as the first pull left it. -/
theorem pullEnvironmentMetrics_idempotent_witness :
    pullEnvironmentMetrics localExternals (localExporter behindClient) productionEnvironment
        (localWorld LocalStore.empty) = (none, firstPull.2) ∧
    ∃ w2, pullEnvironmentMetrics localExternals (localExporter behindClient)
        productionEnvironment firstPull.2 = (none, w2) ∧
      w2.store = firstPull.2.store ∧
      ∃ t, firstPull.2.trace = (localWorld LocalStore.empty).trace ++ t ∧
        w2.trace = firstPull.2.trace ++ t :=
  ⟨rfl, pullEnvironmentMetrics_idempotent behindClient productionEnvironment
    (localWorld LocalStore.empty) firstPull.2 rfl⟩

/-- The pull of `production` against `behindClient` run twice from an empty Store: both
runs look the commit count up and set the behind-commit-count to the count returned. -/
theorem pullEnvironmentMetrics_twice_counts :
    behindCommitsCountEmitted
      (pullEnvironmentMetrics localExternals (localExporter behindClient)
        productionEnvironment firstPull.2).2.trace
      = [Float64.ofInt 3, Float64.ofInt 3] := by
  rfl

end GitlabExporter
